import Mathlib

/-!
Verification of the eligibility-and-dispatch subsystem of the mondrop
repository: the batch-indexed expiring caches (`src/cacheManager.js`),
the contract classifier and address selector (`src/addressSelector.js`),
and the single-flight dispatch queue (`sendTokens` /
`processTransactionQueue` in the queued token-sender variant).

JavaScript `Map` and `Set` are modelled as insertion-ordered association
lists / lists, mirroring `Map.prototype.set` (update in place, append when
new), `delete`, `get`, `has`, and iteration order of `entries()`.
-/

/-- JS `String.prototype.toLowerCase` as used for address normalization:
lower-case every character (spelled on the character list so that it
evaluates on literals). -/
def normalizeAddr (s : String) : String := ⟨s.data.map Char.toLower⟩

/-- JS `Set.prototype.has`. -/
def setHas (s : List String) (a : String) : Bool := decide (a ∈ s)

/-- JS `Set.prototype.add`: appends iff absent (insertion order kept). -/
def setAdd (s : List String) (a : String) : List String :=
  if a ∈ s then s else s ++ [a]

/-- JS `Set.prototype.delete`: removes the element if present. -/
def setDel (s : List String) (a : String) : List String :=
  s.filter (fun x => x ≠ a)

/-- JS `Map.prototype.get` on an insertion-ordered association list. -/
def mapGet {κ β : Type} [DecidableEq κ] : List (κ × β) → κ → Option β
  | [], _ => none
  | p :: rest, k => if p.1 = k then some p.2 else mapGet rest k

/-- JS `Map.prototype.set`: update in place if the key exists, else append. -/
def mapSet {κ β : Type} [DecidableEq κ] : List (κ × β) → κ → β → List (κ × β)
  | [], k, v => [(k, v)]
  | p :: rest, k, v => if p.1 = k then (k, v) :: rest else p :: mapSet rest k v

/-- JS `Map.prototype.delete`: remove the entry with the given key. -/
def mapDel {κ β : Type} [DecidableEq κ] : List (κ × β) → κ → List (κ × β)
  | [], _ => []
  | p :: rest, k => if p.1 = k then rest else p :: mapDel rest k

/-- Mutation of the value object obtained from `Map.prototype.get`
(e.g. `cache.get(b).delete(a)` mutates the stored set in place). -/
def mapUpdate {κ β : Type} [DecidableEq κ] : List (κ × β) → κ → (β → β) → List (κ × β)
  | [], _, _ => []
  | p :: rest, k, f => if p.1 = k then (p.1, f p.2) :: rest else p :: mapUpdate rest k f

/-- Keys of an association list, in insertion order. -/
def mapKeys {κ β : Type} (m : List (κ × β)) : List κ := m.map Prod.fst

theorem mapKeys_nil {κ β : Type} : mapKeys ([] : List (κ × β)) = [] := rfl

theorem mapKeys_cons {κ β : Type} (p : κ × β) (l : List (κ × β)) :
    mapKeys (p :: l) = p.1 :: mapKeys l := rfl

section MapLemmas

variable {κ β : Type} [DecidableEq κ]

theorem setHas_iff (s : List String) (a : String) : setHas s a = true ↔ a ∈ s := by
  simp [setHas]

theorem mem_setAdd (s : List String) (a x : String) :
    x ∈ setAdd s a ↔ x ∈ s ∨ x = a := by
  unfold setAdd
  by_cases h : a ∈ s
  · simp only [if_pos h]
    constructor
    · exact fun hx => Or.inl hx
    · rintro (hx | rfl) <;> [exact hx; exact h]
  · simp [if_neg h]

theorem mem_setDel (s : List String) (a x : String) :
    x ∈ setDel s a ↔ x ∈ s ∧ x ≠ a := by
  simp [setDel]

theorem nodup_setAdd (s : List String) (a : String) (h : s.Nodup) :
    (setAdd s a).Nodup := by
  unfold setAdd
  by_cases ha : a ∈ s
  · simpa [if_pos ha] using h
  · rw [if_neg ha]
    refine List.Nodup.append h (List.nodup_singleton a) ?_
    intro x hx hmem
    rw [List.mem_singleton] at hmem
    subst hmem
    exact ha hx

theorem nodup_setDel (s : List String) (a : String) (h : s.Nodup) :
    (setDel s a).Nodup :=
  h.filter _

theorem mem_foldl_setDel (l : List String) (m : List String) (x : String) :
    x ∈ l.foldl setDel m ↔ x ∈ m ∧ x ∉ l := by
  induction l generalizing m with
  | nil => simp
  | cons a rest ih =>
      simp only [List.foldl_cons, ih, mem_setDel, List.mem_cons]
      constructor
      · rintro ⟨⟨hm, hne⟩, hr⟩
        exact ⟨hm, by rintro (rfl | h) <;> [exact hne rfl; exact hr h]⟩
      · rintro ⟨hm, hn⟩
        exact ⟨⟨hm, fun hx => hn (Or.inl hx)⟩, fun hx => hn (Or.inr hx)⟩

theorem mapGet_mapSet_self (m : List (κ × β)) (k : κ) (v : β) :
    mapGet (mapSet m k v) k = some v := by
  induction m with
  | nil => simp [mapSet, mapGet]
  | cons p rest ih =>
      by_cases h : p.1 = k
      · simp [mapSet, mapGet, h]
      · simp [mapSet, mapGet, h, ih]

theorem mapGet_mapSet_ne (m : List (κ × β)) (k k' : κ) (v : β) (h : k' ≠ k) :
    mapGet (mapSet m k v) k' = mapGet m k' := by
  have hk : k ≠ k' := Ne.symm h
  induction m with
  | nil => simp [mapSet, mapGet, hk]
  | cons p rest ih =>
      by_cases hp : p.1 = k
      · subst hp
        simp [mapSet, mapGet, hk]
      · by_cases hp' : p.1 = k'
        · simp [mapSet, mapGet, hp, hp', h, hk]
        · simp [mapSet, mapGet, hp, hp', ih]

theorem mapGet_mapDel_ne (m : List (κ × β)) (k k' : κ) (h : k' ≠ k) :
    mapGet (mapDel m k) k' = mapGet m k' := by
  have hk : k ≠ k' := Ne.symm h
  induction m with
  | nil => simp [mapDel]
  | cons p rest ih =>
      by_cases hp : p.1 = k
      · subst hp
        simp [mapDel, mapGet, hk]
      · simp [mapDel, mapGet, hp, ih]

theorem mapGet_mapUpdate_self (m : List (κ × β)) (k : κ) (f : β → β) :
    mapGet (mapUpdate m k f) k = (mapGet m k).map f := by
  induction m with
  | nil => simp [mapUpdate, mapGet]
  | cons p rest ih =>
      by_cases hp : p.1 = k
      · simp [mapUpdate, mapGet, hp]
      · simp [mapUpdate, mapGet, hp, ih]

theorem mapGet_mapUpdate_ne (m : List (κ × β)) (k k' : κ) (f : β → β) (h : k' ≠ k) :
    mapGet (mapUpdate m k f) k' = mapGet m k' := by
  have hk : k ≠ k' := Ne.symm h
  induction m with
  | nil => simp [mapUpdate]
  | cons p rest ih =>
      by_cases hp : p.1 = k
      · subst hp
        simp [mapUpdate, mapGet, hk]
      · simp [mapUpdate, mapGet, hp, ih]

theorem mapKeys_mapUpdate (m : List (κ × β)) (k : κ) (f : β → β) :
    mapKeys (mapUpdate m k f) = mapKeys m := by
  induction m with
  | nil => rfl
  | cons p rest ih =>
      by_cases hp : p.1 = k
      · simp [mapUpdate, mapKeys_cons, hp]
      · simp only [mapUpdate, if_neg hp, mapKeys_cons, ih]

theorem mapKeys_mapDel_sublist (m : List (κ × β)) (k : κ) :
    (mapKeys (mapDel m k)).Sublist (mapKeys m) := by
  induction m with
  | nil => simp [mapDel, mapKeys]
  | cons p rest ih =>
      by_cases hp : p.1 = k
      · simp only [mapDel, if_pos hp, mapKeys_cons]
        exact List.sublist_cons_of_sublist _ (List.Sublist.refl _)
      · simp only [mapDel, if_neg hp, mapKeys_cons]
        exact List.Sublist.cons₂ _ ih

theorem mem_mapKeys_mapSet (m : List (κ × β)) (k k' : κ) (v : β) :
    k' ∈ mapKeys (mapSet m k v) ↔ k' ∈ mapKeys m ∨ k' = k := by
  induction m with
  | nil => simp [mapSet, mapKeys]
  | cons p rest ih =>
      by_cases hp : p.1 = k
      · subst hp
        have hset : mapSet (p :: rest) p.1 v = (p.1, v) :: rest := by simp [mapSet]
        rw [hset, mapKeys_cons, mapKeys_cons]
        simp only [List.mem_cons]
        tauto
      · simp only [mapSet, if_neg hp, mapKeys_cons, List.mem_cons, ih]
        tauto

theorem nodup_mapKeys_mapSet (m : List (κ × β)) (k : κ) (v : β)
    (h : (mapKeys m).Nodup) : (mapKeys (mapSet m k v)).Nodup := by
  induction m with
  | nil => simp [mapSet, mapKeys]
  | cons p rest ih =>
      rw [mapKeys_cons, List.nodup_cons] at h
      by_cases hp : p.1 = k
      · subst hp
        have hset : mapSet (p :: rest) p.1 v = (p.1, v) :: rest := by simp [mapSet]
        rw [hset, mapKeys_cons, List.nodup_cons]
        exact h
      · simp only [mapSet, if_neg hp, mapKeys_cons, List.nodup_cons]
        refine ⟨?_, ih h.2⟩
        intro hmem
        rw [mem_mapKeys_mapSet] at hmem
        rcases hmem with hmem | rfl
        · exact h.1 hmem
        · exact hp rfl

theorem nodup_mapKeys_mapDel (m : List (κ × β)) (k : κ)
    (h : (mapKeys m).Nodup) : (mapKeys (mapDel m k)).Nodup :=
  (mapKeys_mapDel_sublist m k).nodup h

theorem nodup_mapKeys_mapUpdate (m : List (κ × β)) (k : κ) (f : β → β)
    (h : (mapKeys m).Nodup) : (mapKeys (mapUpdate m k f)).Nodup := by
  rw [mapKeys_mapUpdate]; exact h

theorem mapGet_isSome_iff_mem_keys (m : List (κ × β)) (k : κ) :
    (mapGet m k).isSome = true ↔ k ∈ mapKeys m := by
  induction m with
  | nil => simp [mapGet, mapKeys]
  | cons p rest ih =>
      by_cases hp : p.1 = k
      · simp [mapGet, mapKeys_cons, hp]
      · have hk : k ≠ p.1 := fun hh => hp hh.symm
        simp [mapGet, mapKeys_cons, hp, hk, ih]

theorem mapGet_mapDel_self (m : List (κ × β)) (k : κ)
    (h : (mapKeys m).Nodup) : mapGet (mapDel m k) k = none := by
  induction m with
  | nil => simp [mapDel, mapGet]
  | cons p rest ih =>
      rw [mapKeys_cons, List.nodup_cons] at h
      by_cases hp : p.1 = k
      · subst hp
        simp only [mapDel, if_pos rfl]
        cases hg : mapGet rest p.1 with
        | none => exact hg
        | some v =>
            exfalso
            exact h.1 ((mapGet_isSome_iff_mem_keys rest p.1).mp (by simp [hg]))
      · simp [mapDel, mapGet, hp, ih h.2]

end MapLemmas

/-!
## The two batch-indexed expiring caches (`src/cacheManager.js`)

`walletAddressCache : Set` + `walletAddressExpirationCache : Map<number, Set>`
form the wallet cooldown cache; `contractAddressCache : Map<string, bool>` +
`contractAddressExpirationCache : Map<number, Set>` form the contract
classification cache. `config.cooldownBatches` is kept as an explicit
`cooldown` parameter.
-/

/-- Wallet cooldown cache state: `walletAddressCache` and
`walletAddressExpirationCache`. -/
structure WalletCache where
  members : List String
  expIndex : List (Nat × List String)
deriving DecidableEq

/-- Contract classification cache state: `contractAddressCache` and
`contractAddressExpirationCache`. -/
structure ContractCache where
  members : List (String × Bool)
  expIndex : List (Nat × List String)
deriving DecidableEq

def emptyWalletCache : WalletCache := ⟨[], []⟩

def emptyContractCache : ContractCache := ⟨[], []⟩

/-- The `for (const [batch, addresses] of expirationCache.entries())` search:
first bucket (in insertion order) whose set contains the address. -/
def findBucket : List (Nat × List String) → String → Option Nat
  | [], _ => none
  | p :: rest, a => if a ∈ p.2 then some p.1 else findBucket rest a

/-- The address `a` sits in the expiration-index bucket for batch `b`. -/
def inBucket (idx : List (Nat × List String)) (b : Nat) (a : String) : Prop :=
  ∃ v, mapGet idx b = some v ∧ a ∈ v

instance (idx : List (Nat × List String)) (b : Nat) (a : String) :
    Decidable (inBucket idx b a) := by
  unfold inBucket
  cases mapGet idx b with
  | none => exact .isFalse (by simp)
  | some v => exact decidable_of_iff (a ∈ v) (by simp)

/-- `if (!cache.has(expirationBatch)) cache.set(expirationBatch, new Set());
cache.get(expirationBatch).add(normalizedAddress);` -/
def ensureAdd (idx : List (Nat × List String)) (expirationBatch : Nat)
    (a : String) : List (Nat × List String) :=
  let idx2 := if (mapGet idx expirationBatch).isSome then idx
              else mapSet idx expirationBatch []
  mapUpdate idx2 expirationBatch (fun v => setAdd v a)

/-- `cache.get(currentExpirationBatch).delete(normalizedAddress);` followed
by deleting the bucket when it became empty (no previous bucket: no-op). -/
def removeFromBucket (idx : List (Nat × List String))
    (currentExpirationBatch : Option Nat) (a : String) : List (Nat × List String) :=
  match currentExpirationBatch with
  | some b =>
      let i1 := mapUpdate idx b (fun v => setDel v a)
      if (mapGet i1 b).getD [] = [] then mapDel i1 b else i1
  | none => idx

/-- Shared shape of the bucket-moving step in both upsert functions: remove
the address from its previous bucket (dropping the bucket if it became
empty), make sure the target bucket exists, and add the address to it. -/
def moveToBucket (idx : List (Nat × List String)) (currentExpirationBatch : Option Nat)
    (expirationBatch : Nat) (a : String) : List (Nat × List String) :=
  ensureAdd (removeFromBucket idx currentExpirationBatch a) expirationBatch a

/-- `addToWalletAddressCache(address, currentBatch)` from `cacheManager.js`
(`expirationBatch = currentBatch + config.cooldownBatches`). -/
def addToWalletAddressCache (cooldown : Nat) (address : String) (currentBatch : Nat)
    (s : WalletCache) : WalletCache :=
  let a := normalizeAddr address
  let expirationBatch := currentBatch + cooldown
  let isNewAddress := ¬ a ∈ s.members
  let currentExpirationBatch : Option Nat :=
    if isNewAddress then none else findBucket s.expIndex a
  if currentExpirationBatch = some expirationBatch then s
  else
    { members := setAdd s.members a
      expIndex := moveToBucket s.expIndex currentExpirationBatch expirationBatch a }

/-- `updateContractAddressCache(address, currentBatch, isNewContract)` from
`cacheManager.js` (`expirationBatch = currentBatch + config.cooldownBatches * 10`). -/
def updateContractAddressCache (cooldown : Nat) (address : String) (currentBatch : Nat)
    (isNewContract : Bool) (s : ContractCache) : ContractCache :=
  let a := normalizeAddr address
  let expirationBatch := currentBatch + cooldown * 10
  let m := if isNewContract then mapSet s.members a true else s.members
  let currentExpirationBatch : Option Nat :=
    if (mapGet m a).isSome then findBucket s.expIndex a else none
  if currentExpirationBatch = some expirationBatch then { members := m, expIndex := s.expIndex }
  else
    { members := m
      expIndex := moveToBucket s.expIndex currentExpirationBatch expirationBatch a }

/-- `cleanupWalletAddressCache(currentBatch)` from `cacheManager.js`:
remove every address in the bucket for `currentBatch` from the members set,
then delete the bucket. -/
def cleanupWalletAddressCache (currentBatch : Nat) (s : WalletCache) : WalletCache :=
  match mapGet s.expIndex currentBatch with
  | none => s
  | some addressesToRemove =>
      { members := addressesToRemove.foldl setDel s.members
        expIndex := mapDel s.expIndex currentBatch }

/-- `cleanupContractAddressCache(currentBatch)` from `cacheManager.js`. -/
def cleanupContractAddressCache (currentBatch : Nat) (s : ContractCache) : ContractCache :=
  match mapGet s.expIndex currentBatch with
  | none => s
  | some addressesToRemove =>
      { members := addressesToRemove.foldl (fun m addr => mapDel m addr) s.members
        expIndex := mapDel s.expIndex currentBatch }

/-- `isWalletAddressInCache(address)` from `cacheManager.js`. -/
def isWalletAddressInCache (s : WalletCache) (address : String) : Bool :=
  setHas s.members (normalizeAddr address)

/-- `isContractAddressInCache(address)` from `cacheManager.js`. -/
def isContractAddressInCache (s : ContractCache) (address : String) : Bool :=
  (mapGet s.members (normalizeAddr address)).isSome

/-- `getContractAddressFromCache(address)` from `cacheManager.js`
(`Map.prototype.get`, `undefined` when absent). -/
def getContractAddressFromCache (s : ContractCache) (address : String) : Option Bool :=
  mapGet s.members (normalizeAddr address)

/-!
## Characterization of the bucket search and the bucket-moving step
-/

theorem inBucket_head (p : Nat × List String) (rest : List (Nat × List String))
    (a : String) (ha : a ∈ p.2) : inBucket (p :: rest) p.1 a := by
  exact ⟨p.2, by simp [mapGet], ha⟩

theorem inBucket_cons_of_ne (p : Nat × List String) (rest : List (Nat × List String))
    (b : Nat) (a : String) (hb : p.1 ≠ b) (h : inBucket rest b a) :
    inBucket (p :: rest) b a := by
  obtain ⟨v, hv, hav⟩ := h
  exact ⟨v, by simp [mapGet, hb, hv], hav⟩

theorem inBucket_of_cons (p : Nat × List String) (rest : List (Nat × List String))
    (b : Nat) (a : String) (h : inBucket (p :: rest) b a) :
    (p.1 = b ∧ a ∈ p.2) ∨ (p.1 ≠ b ∧ inBucket rest b a) := by
  obtain ⟨v, hv, hav⟩ := h
  by_cases hp : p.1 = b
  · left
    refine ⟨hp, ?_⟩
    simp only [mapGet, if_pos hp] at hv
    cases hv
    exact hav
  · right
    simp only [mapGet, if_neg hp] at hv
    exact ⟨hp, v, hv, hav⟩

theorem inBucket_mem_keys (idx : List (Nat × List String)) (b : Nat) (a : String)
    (h : inBucket idx b a) : b ∈ mapKeys idx := by
  obtain ⟨v, hv, _⟩ := h
  exact (mapGet_isSome_iff_mem_keys idx b).mp (by simp [hv])

theorem findBucket_eq_none (idx : List (Nat × List String)) (a : String)
    (hk : (mapKeys idx).Nodup) :
    findBucket idx a = none ↔ ∀ b, ¬ inBucket idx b a := by
  induction idx with
  | nil => simp [findBucket, inBucket, mapGet]
  | cons p rest ih =>
      rw [mapKeys_cons, List.nodup_cons] at hk
      by_cases ha : a ∈ p.2
      · simp only [findBucket, if_pos ha]
        constructor
        · intro h; cases h
        · intro h
          exact absurd (inBucket_head p rest a ha) (h p.1)
      · simp only [findBucket, if_neg ha, ih hk.2]
        constructor
        · intro h b hb
          rcases inBucket_of_cons p rest b a hb with ⟨_, hmem⟩ | ⟨_, hrest⟩
          · exact ha hmem
          · exact h b hrest
        · intro h b hb
          refine h b (inBucket_cons_of_ne p rest b a ?_ hb)
          intro heq
          exact hk.1 (heq ▸ inBucket_mem_keys rest b a hb)

theorem findBucket_eq_some (idx : List (Nat × List String)) (a : String) (b : Nat)
    (hk : (mapKeys idx).Nodup) (h : findBucket idx a = some b) :
    inBucket idx b a := by
  induction idx with
  | nil => cases h
  | cons p rest ih =>
      rw [mapKeys_cons, List.nodup_cons] at hk
      by_cases ha : a ∈ p.2
      · simp only [findBucket, if_pos ha, Option.some.injEq] at h
        exact h ▸ inBucket_head p rest a ha
      · simp only [findBucket, if_neg ha] at h
        have hrest := ih hk.2 h
        refine inBucket_cons_of_ne p rest b a ?_ hrest
        intro heq
        exact hk.1 (heq ▸ inBucket_mem_keys rest b a hrest)

theorem findBucket_of_inBucket (idx : List (Nat × List String)) (a : String) (b : Nat)
    (hk : (mapKeys idx).Nodup)
    (huniq : ∀ b1 b2, inBucket idx b1 a → inBucket idx b2 a → b1 = b2)
    (h : inBucket idx b a) : findBucket idx a = some b := by
  cases hfb : findBucket idx a with
  | none => exact absurd h ((findBucket_eq_none idx a hk).mp hfb b)
  | some b' =>
      have := findBucket_eq_some idx a b' hk hfb
      rw [huniq b' b this h]

/-- Non-emptiness of `setAdd`. -/
theorem setAdd_ne_nil (s : List String) (a : String) : setAdd s a ≠ [] := by
  unfold setAdd
  by_cases h : a ∈ s
  · rw [if_pos h]
    rintro rfl
    cases h
  · rw [if_neg h]
    simp

theorem mapGet_ensureAdd_target (i : List (Nat × List String)) (E : Nat) (a : String) :
    mapGet (ensureAdd i E a) E = some (setAdd ((mapGet i E).getD []) a) := by
  unfold ensureAdd
  by_cases hs : (mapGet i E).isSome
  · obtain ⟨v, hv⟩ := Option.isSome_iff_exists.mp hs
    rw [if_pos hs, mapGet_mapUpdate_self, hv]
    rfl
  · rw [if_neg hs, mapGet_mapUpdate_self, mapGet_mapSet_self,
      Option.not_isSome_iff_eq_none.mp hs]
    rfl

theorem mapGet_ensureAdd_other (i : List (Nat × List String)) (E : Nat) (a : String)
    (k : Nat) (hke : k ≠ E) :
    mapGet (ensureAdd i E a) k = mapGet i k := by
  unfold ensureAdd
  by_cases hs : (mapGet i E).isSome
  · rw [if_pos hs, mapGet_mapUpdate_ne _ _ _ _ hke]
  · rw [if_neg hs, mapGet_mapUpdate_ne _ _ _ _ hke, mapGet_mapSet_ne _ _ _ _ hke]

theorem keysNodup_ensureAdd (i : List (Nat × List String)) (E : Nat) (a : String)
    (hk : (mapKeys i).Nodup) : (mapKeys (ensureAdd i E a)).Nodup := by
  unfold ensureAdd
  by_cases hs : (mapGet i E).isSome
  · rw [if_pos hs]
    exact nodup_mapKeys_mapUpdate _ E _ hk
  · rw [if_neg hs]
    exact nodup_mapKeys_mapUpdate _ E _ (nodup_mapKeys_mapSet i E [] hk)

theorem removeFromBucket_none (idx : List (Nat × List String)) (a : String) :
    removeFromBucket idx none a = idx := rfl

theorem removeFromBucket_some (idx : List (Nat × List String)) (b : Nat) (a : String) :
    removeFromBucket idx (some b) a =
      (if (mapGet (mapUpdate idx b (fun v => setDel v a)) b).getD [] = []
       then mapDel (mapUpdate idx b (fun v => setDel v a)) b
       else mapUpdate idx b (fun v => setDel v a)) := rfl

theorem keysNodup_removeFromBucket (idx : List (Nat × List String)) (cur : Option Nat)
    (a : String) (hk : (mapKeys idx).Nodup) :
    (mapKeys (removeFromBucket idx cur a)).Nodup := by
  cases cur with
  | none => rw [removeFromBucket_none]; exact hk
  | some b =>
      rw [removeFromBucket_some]
      have hu : (mapKeys (mapUpdate idx b (fun v => setDel v a))).Nodup :=
        nodup_mapKeys_mapUpdate idx b _ hk
      by_cases he : (mapGet (mapUpdate idx b (fun v => setDel v a)) b).getD [] = []
      · rw [if_pos he]
        exact nodup_mapKeys_mapDel _ b hu
      · rw [if_neg he]
        exact hu

theorem keysNodup_moveToBucket (idx : List (Nat × List String)) (cur : Option Nat)
    (E : Nat) (a : String) (hk : (mapKeys idx).Nodup) :
    (mapKeys (moveToBucket idx cur E a)).Nodup :=
  keysNodup_ensureAdd _ E a (keysNodup_removeFromBucket idx cur a hk)

/-- Target-bucket content after `moveToBucket` when there was no previous
bucket for the address. -/
theorem mapGet_moveToBucket_none_target (idx : List (Nat × List String))
    (E : Nat) (a : String) :
    mapGet (moveToBucket idx none E a) E =
      some (setAdd ((mapGet idx E).getD []) a) :=
  mapGet_ensureAdd_target idx E a

theorem mapGet_moveToBucket_none_other (idx : List (Nat × List String))
    (E : Nat) (a : String) (k : Nat) (hke : k ≠ E) :
    mapGet (moveToBucket idx none E a) k = mapGet idx k :=
  mapGet_ensureAdd_other idx E a k hke

/-- Full description of `moveToBucket` when the address moves out of an
existing bucket `b ≠ E` with contents `v0`. -/
theorem mapGet_moveToBucket_some (idx : List (Nat × List String))
    (b E : Nat) (a : String) (v0 : List String)
    (hk : (mapKeys idx).Nodup) (hbe : b ≠ E) (hv : mapGet idx b = some v0) :
    mapGet (moveToBucket idx (some b) E a) E =
        some (setAdd ((mapGet idx E).getD []) a)
    ∧ mapGet (moveToBucket idx (some b) E a) b =
        (if setDel v0 a = [] then none else some (setDel v0 a))
    ∧ ∀ k, k ≠ E → k ≠ b → mapGet (moveToBucket idx (some b) E a) k = mapGet idx k := by
  have hub : mapGet (mapUpdate idx b (fun v => setDel v a)) b = some (setDel v0 a) := by
    rw [mapGet_mapUpdate_self, hv]; rfl
  have hkub : (mapKeys (mapUpdate idx b (fun v => setDel v a))).Nodup :=
    nodup_mapKeys_mapUpdate idx b _ hk
  have hgb : mapGet (removeFromBucket idx (some b) a) b =
      (if setDel v0 a = [] then none else some (setDel v0 a)) := by
    rw [removeFromBucket_some, hub, Option.getD_some]
    by_cases hdel : setDel v0 a = []
    · rw [if_pos hdel, if_pos hdel]
      exact mapGet_mapDel_self _ b hkub
    · rw [if_neg hdel, if_neg hdel]
      exact hub
  have hgother : ∀ k, k ≠ b → mapGet (removeFromBucket idx (some b) a) k = mapGet idx k := by
    intro k hkb
    rw [removeFromBucket_some, hub, Option.getD_some]
    by_cases hdel : setDel v0 a = []
    · rw [if_pos hdel, mapGet_mapDel_ne _ _ _ hkb, mapGet_mapUpdate_ne _ _ _ _ hkb]
    · rw [if_neg hdel]
      exact mapGet_mapUpdate_ne _ _ _ _ hkb
  refine ⟨?_, ?_, ?_⟩
  · rw [show moveToBucket idx (some b) E a =
        ensureAdd (removeFromBucket idx (some b) a) E a from rfl,
      mapGet_ensureAdd_target, hgother E (Ne.symm hbe)]
  · rw [show moveToBucket idx (some b) E a =
        ensureAdd (removeFromBucket idx (some b) a) E a from rfl,
      mapGet_ensureAdd_other _ _ _ _ hbe]
    exact hgb
  · intro k hkE hkb
    rw [show moveToBucket idx (some b) E a =
        ensureAdd (removeFromBucket idx (some b) a) E a from rfl,
      mapGet_ensureAdd_other _ _ _ _ hkE]
    exact hgother k hkb

/-!
## Cache well-formedness and the effect of upsert / cleanup

The invariant claimed by the spec: members and expiration buckets are in
exact correspondence, each member sitting in exactly one bucket.
-/

def bucketsNodup (idx : List (Nat × List String)) : Prop :=
  ∀ b v, mapGet idx b = some v → v.Nodup

def bucketsNonempty (idx : List (Nat × List String)) : Prop :=
  ∀ b v, mapGet idx b = some v → v ≠ []

/-- Well-formedness of the wallet cooldown cache. -/
structure WFw (s : WalletCache) : Prop where
  membersNodup : s.members.Nodup
  keysNodup : (mapKeys s.expIndex).Nodup
  bucketsNodup : bucketsNodup s.expIndex
  bucketsNonempty : bucketsNonempty s.expIndex
  memIff : ∀ x, x ∈ s.members ↔ ∃ b, inBucket s.expIndex b x
  uniq : ∀ x b1 b2, inBucket s.expIndex b1 x → inBucket s.expIndex b2 x → b1 = b2

/-- Well-formedness of the contract classification cache. -/
structure WFc (s : ContractCache) : Prop where
  memKeysNodup : (mapKeys s.members).Nodup
  valuesTrue : ∀ x v, mapGet s.members x = some v → v = true
  keysNodup : (mapKeys s.expIndex).Nodup
  bucketsNodup : bucketsNodup s.expIndex
  bucketsNonempty : bucketsNonempty s.expIndex
  memIff : ∀ x, (mapGet s.members x).isSome = true ↔ ∃ b, inBucket s.expIndex b x
  uniq : ∀ x b1 b2, inBucket s.expIndex b1 x → inBucket s.expIndex b2 x → b1 = b2

theorem WFw_empty : WFw emptyWalletCache := by
  refine ⟨List.nodup_nil, List.nodup_nil, ?_, ?_, ?_, ?_⟩
  · intro b v hv; cases hv
  · intro b v hv; cases hv
  · intro x
    constructor
    · intro hx; cases hx
    · rintro ⟨b, v, hv, _⟩; cases hv
  · rintro x b1 b2 ⟨v, hv, _⟩ _; cases hv

theorem WFc_empty : WFc emptyContractCache := by
  refine ⟨List.nodup_nil, ?_, List.nodup_nil, ?_, ?_, ?_, ?_⟩
  · intro x v hv; cases hv
  · intro b v hv; cases hv
  · intro b v hv; cases hv
  · intro x
    constructor
    · intro hx; simp [emptyContractCache, mapGet] at hx
    · rintro ⟨b, v, hv, _⟩; cases hv
  · rintro x b1 b2 ⟨v, hv, _⟩ _; cases hv

/-- Bucket contents after `moveToBucket` with no previous bucket, stated as
a membership equivalence. -/
theorem inBucket_move_none (idx : List (Nat × List String)) (E : Nat) (na : String)
    (hnb : ∀ b, ¬ inBucket idx b na) :
    ∀ b x, inBucket (moveToBucket idx none E na) b x ↔
      (if x = na then b = E else inBucket idx b x) := by
  intro b x
  by_cases hbE : b = E
  · subst hbE
    rw [show inBucket (moveToBucket idx none b na) b x ↔
        x ∈ setAdd ((mapGet idx b).getD []) na from
      ⟨fun ⟨v, hv, hx⟩ => by
          rw [mapGet_moveToBucket_none_target] at hv
          cases hv; exact hx,
       fun hx => ⟨_, mapGet_moveToBucket_none_target idx b na, hx⟩⟩]
    rw [mem_setAdd]
    by_cases hx : x = na
    · simp [hx]
    · simp only [hx, if_neg, or_false, if_false]
      cases hE : mapGet idx b with
      | none =>
          simp only [hE, Option.getD_none, List.not_mem_nil, false_iff]
          rintro ⟨v, hv, hxv⟩
          rw [hE] at hv; cases hv
      | some v =>
          simp only [hE, Option.getD_some]
          exact ⟨fun hxv => ⟨v, hE, hxv⟩, fun ⟨v', hv', hxv'⟩ => by
            rw [hE] at hv'; cases hv'; exact hxv'⟩
  · rw [show inBucket (moveToBucket idx none E na) b x ↔ inBucket idx b x from by
      unfold inBucket
      rw [mapGet_moveToBucket_none_other idx E na b hbE]]
    by_cases hx : x = na
    · subst hx
      simp only [if_pos rfl]
      exact ⟨fun h => absurd h (hnb b), fun h => absurd h hbE⟩
    · rw [if_neg hx]

/-- Bucket contents after `moveToBucket` out of a previous bucket `b0 ≠ E`. -/
theorem inBucket_move_some (idx : List (Nat × List String)) (b0 E : Nat) (na : String)
    (v0 : List String) (hk : (mapKeys idx).Nodup) (hbe : b0 ≠ E)
    (hv0 : mapGet idx b0 = some v0) (hna : na ∈ v0)
    (huniq : ∀ b1 b2, inBucket idx b1 na → inBucket idx b2 na → b1 = b2) :
    ∀ b x, inBucket (moveToBucket idx (some b0) E na) b x ↔
      (if x = na then b = E else inBucket idx b x) := by
  obtain ⟨hE, hb0, hother⟩ := mapGet_moveToBucket_some idx b0 E na v0 hk hbe hv0
  intro b x
  by_cases hbE : b = E
  · subst hbE
    rw [show inBucket (moveToBucket idx (some b0) b na) b x ↔
        x ∈ setAdd ((mapGet idx b).getD []) na from
      ⟨fun ⟨v, hv, hx⟩ => by rw [hE] at hv; cases hv; exact hx,
       fun hx => ⟨_, hE, hx⟩⟩]
    rw [mem_setAdd]
    by_cases hx : x = na
    · simp [hx]
    · simp only [hx, or_false, if_false]
      cases hgE : mapGet idx b with
      | none =>
          simp only [hgE, Option.getD_none, List.not_mem_nil, false_iff]
          rintro ⟨v, hv, hxv⟩
          rw [hgE] at hv; cases hv
      | some v =>
          simp only [hgE, Option.getD_some]
          exact ⟨fun hxv => ⟨v, hgE, hxv⟩, fun ⟨v', hv', hxv'⟩ => by
            rw [hgE] at hv'; cases hv'; exact hxv'⟩
  · by_cases hbb0 : b = b0
    · subst hbb0
      have hmem : inBucket (moveToBucket idx (some b) E na) b x ↔ x ∈ setDel v0 na := by
        constructor
        · rintro ⟨v, hv, hx⟩
          rw [hb0] at hv
          by_cases hdel : setDel v0 na = []
          · rw [if_pos hdel] at hv; cases hv
          · rw [if_neg hdel] at hv; cases hv; exact hx
        · intro hx
          have hdel : setDel v0 na ≠ [] := by
            intro hnil; rw [hnil] at hx; cases hx
          exact ⟨_, by rw [hb0, if_neg hdel], hx⟩
      rw [hmem, mem_setDel]
      by_cases hx : x = na
      · subst hx
        simp only [if_pos rfl]
        constructor
        · rintro ⟨_, hne⟩; exact absurd rfl hne
        · intro hbe'; exact absurd hbe' hbe
      · rw [if_neg hx]
        constructor
        · rintro ⟨hxv, _⟩; exact ⟨v0, hv0, hxv⟩
        · rintro ⟨v, hv, hxv⟩
          rw [hv0] at hv; cases hv; exact ⟨hxv, hx⟩
    · rw [show inBucket (moveToBucket idx (some b0) E na) b x ↔ inBucket idx b x from by
        unfold inBucket
        rw [hother b hbE hbb0]]
      by_cases hx : x = na
      · subst hx
        simp only [if_pos rfl]
        constructor
        · intro h
          exact absurd (huniq b b0 h ⟨v0, hv0, hna⟩) hbb0
        · intro h; exact absurd h hbE
      · rw [if_neg hx]

/-- When the address already sits in bucket `E`, the bucket structure
already satisfies the post-upsert description. -/
theorem inBucket_same (idx : List (Nat × List String)) (E : Nat) (na : String)
    (hE : inBucket idx E na)
    (huniq : ∀ b1 b2, inBucket idx b1 na → inBucket idx b2 na → b1 = b2) :
    ∀ b x, inBucket idx b x ↔ (if x = na then b = E else inBucket idx b x) := by
  intro b x
  by_cases hx : x = na
  · subst hx
    rw [if_pos rfl]
    exact ⟨fun h => huniq b E h hE, fun h => h ▸ hE⟩
  · rw [if_neg hx]

theorem structural_move_none (idx : List (Nat × List String)) (E : Nat) (na : String)
    (h3 : bucketsNodup idx) (h4 : bucketsNonempty idx) :
    bucketsNodup (moveToBucket idx none E na) ∧
    bucketsNonempty (moveToBucket idx none E na) := by
  constructor
  · intro b v hv
    by_cases hbE : b = E
    · subst hbE
      rw [mapGet_moveToBucket_none_target] at hv
      cases hv
      refine nodup_setAdd _ _ ?_
      cases hE : mapGet idx b with
      | none => simp [hE]
      | some w => simpa [hE] using h3 b w hE
    · rw [mapGet_moveToBucket_none_other idx E na b hbE] at hv
      exact h3 b v hv
  · intro b v hv
    by_cases hbE : b = E
    · subst hbE
      rw [mapGet_moveToBucket_none_target] at hv
      cases hv
      exact setAdd_ne_nil _ _
    · rw [mapGet_moveToBucket_none_other idx E na b hbE] at hv
      exact h4 b v hv

theorem structural_move_some (idx : List (Nat × List String)) (b0 E : Nat) (na : String)
    (v0 : List String) (hk : (mapKeys idx).Nodup) (hbe : b0 ≠ E)
    (hv0 : mapGet idx b0 = some v0)
    (h3 : bucketsNodup idx) (h4 : bucketsNonempty idx) :
    bucketsNodup (moveToBucket idx (some b0) E na) ∧
    bucketsNonempty (moveToBucket idx (some b0) E na) := by
  obtain ⟨hE, hb0, hother⟩ := mapGet_moveToBucket_some idx b0 E na v0 hk hbe hv0
  constructor
  · intro b v hv
    by_cases hbE : b = E
    · subst hbE
      rw [hE] at hv
      cases hv
      refine nodup_setAdd _ _ ?_
      cases hgE : mapGet idx b with
      | none => simp [hgE]
      | some w => simpa [hgE] using h3 b w hgE
    · by_cases hbb0 : b = b0
      · subst hbb0
        rw [hb0] at hv
        by_cases hdel : setDel v0 na = []
        · rw [if_pos hdel] at hv; cases hv
        · rw [if_neg hdel] at hv
          cases hv
          exact nodup_setDel _ _ (h3 b v0 hv0)
      · rw [hother b hbE hbb0] at hv
        exact h3 b v hv
  · intro b v hv
    by_cases hbE : b = E
    · subst hbE
      rw [hE] at hv
      cases hv
      exact setAdd_ne_nil _ _
    · by_cases hbb0 : b = b0
      · subst hbb0
        rw [hb0] at hv
        by_cases hdel : setDel v0 na = []
        · rw [if_pos hdel] at hv; cases hv
        · rw [if_neg hdel] at hv; cases hv; exact hdel
      · rw [hother b hbE hbb0] at hv
        exact h4 b v hv

/-- Derive wallet-cache well-formedness from the two effect equivalences. -/
theorem WFw_from_iffs (s s' : WalletCache) (na : String) (E : Nat) (h : WFw s)
    (hm : ∀ x, x ∈ s'.members ↔ (x ∈ s.members ∨ x = na))
    (hb : ∀ b x, inBucket s'.expIndex b x ↔ (if x = na then b = E else inBucket s.expIndex b x))
    (h1 : s'.members.Nodup) (h2 : (mapKeys s'.expIndex).Nodup)
    (h3 : bucketsNodup s'.expIndex) (h4 : bucketsNonempty s'.expIndex) : WFw s' := by
  refine ⟨h1, h2, h3, h4, ?_, ?_⟩
  · intro x
    rw [hm x]
    by_cases hx : x = na
    · subst hx
      constructor
      · intro _
        exact ⟨E, (hb E x).mpr (by rw [if_pos rfl])⟩
      · intro _
        exact Or.inr rfl
    · constructor
      · rintro (hmem | hxe)
        · obtain ⟨b, hbk⟩ := (h.memIff x).mp hmem
          exact ⟨b, (hb b x).mpr (by rw [if_neg hx]; exact hbk)⟩
        · exact absurd hxe hx
      · rintro ⟨b, hbk⟩
        rw [hb b x, if_neg hx] at hbk
        exact Or.inl ((h.memIff x).mpr ⟨b, hbk⟩)
  · intro x b1 b2 hb1 hb2
    rw [hb b1 x] at hb1
    rw [hb b2 x] at hb2
    by_cases hx : x = na
    · rw [if_pos hx] at hb1 hb2
      rw [hb1, hb2]
    · rw [if_neg hx] at hb1 hb2
      exact h.uniq x b1 b2 hb1 hb2

/-- Derive contract-cache well-formedness from the effect equivalences. -/
theorem WFc_from_iffs (s s' : ContractCache) (na : String) (E : Nat) (h : WFc s)
    (hm : ∀ x, (mapGet s'.members x).isSome = true ↔
        ((mapGet s.members x).isSome = true ∨ x = na))
    (hmv : ∀ x v, mapGet s'.members x = some v → v = true)
    (hmk : (mapKeys s'.members).Nodup)
    (hb : ∀ b x, inBucket s'.expIndex b x ↔ (if x = na then b = E else inBucket s.expIndex b x))
    (h2 : (mapKeys s'.expIndex).Nodup)
    (h3 : bucketsNodup s'.expIndex) (h4 : bucketsNonempty s'.expIndex) : WFc s' := by
  refine ⟨hmk, hmv, h2, h3, h4, ?_, ?_⟩
  · intro x
    rw [hm x]
    by_cases hx : x = na
    · subst hx
      constructor
      · intro _
        exact ⟨E, (hb E x).mpr (by rw [if_pos rfl])⟩
      · intro _
        exact Or.inr rfl
    · constructor
      · rintro (hmem | hxe)
        · obtain ⟨b, hbk⟩ := (h.memIff x).mp hmem
          exact ⟨b, (hb b x).mpr (by rw [if_neg hx]; exact hbk)⟩
        · exact absurd hxe hx
      · rintro ⟨b, hbk⟩
        rw [hb b x, if_neg hx] at hbk
        exact Or.inl ((h.memIff x).mpr ⟨b, hbk⟩)
  · intro x b1 b2 hb1 hb2
    rw [hb b1 x] at hb1
    rw [hb b2 x] at hb2
    by_cases hx : x = na
    · rw [if_pos hx] at hb1 hb2
      rw [hb1, hb2]
    · rw [if_neg hx] at hb1 hb2
      exact h.uniq x b1 b2 hb1 hb2

/-!
## Effect of `addToWalletAddressCache`
-/

theorem addWallet_eq_of_new (cooldown : Nat) (address : String) (B : Nat)
    (s : WalletCache) (h : normalizeAddr address ∉ s.members) :
    addToWalletAddressCache cooldown address B s =
      { members := setAdd s.members (normalizeAddr address)
        expIndex := moveToBucket s.expIndex none (B + cooldown) (normalizeAddr address) } := by
  simp only [addToWalletAddressCache]
  rw [if_pos h, if_neg (by simp)]

theorem addWallet_eq_of_same (cooldown : Nat) (address : String) (B : Nat)
    (s : WalletCache) (hmem : normalizeAddr address ∈ s.members)
    (hfb : findBucket s.expIndex (normalizeAddr address) = some (B + cooldown)) :
    addToWalletAddressCache cooldown address B s = s := by
  simp only [addToWalletAddressCache]
  rw [if_neg (not_not_intro hmem), hfb, if_pos rfl]

theorem addWallet_eq_of_move (cooldown : Nat) (address : String) (B : Nat)
    (s : WalletCache) (b0 : Nat) (hmem : normalizeAddr address ∈ s.members)
    (hfb : findBucket s.expIndex (normalizeAddr address) = some b0)
    (hne : b0 ≠ B + cooldown) :
    addToWalletAddressCache cooldown address B s =
      { members := setAdd s.members (normalizeAddr address)
        expIndex := moveToBucket s.expIndex (some b0) (B + cooldown)
          (normalizeAddr address) } := by
  simp only [addToWalletAddressCache]
  rw [if_neg (not_not_intro hmem), hfb, if_neg (by simpa using hne)]

/-- Complete description of a wallet-cache upsert on a well-formed state:
the address becomes a member, scheduled in exactly the bucket
`currentBatch + cooldown`, and nothing else changes. -/
theorem addWallet_spec (cooldown : Nat) (address : String) (B : Nat) (s : WalletCache)
    (h : WFw s) :
    (∀ x, x ∈ (addToWalletAddressCache cooldown address B s).members ↔
        (x ∈ s.members ∨ x = normalizeAddr address))
  ∧ (∀ b x, inBucket (addToWalletAddressCache cooldown address B s).expIndex b x ↔
        (if x = normalizeAddr address then b = B + cooldown
         else inBucket s.expIndex b x))
  ∧ WFw (addToWalletAddressCache cooldown address B s) := by
  by_cases hmem : normalizeAddr address ∈ s.members
  · obtain ⟨b0, hb0⟩ := (h.memIff _).mp hmem
    have hfb : findBucket s.expIndex (normalizeAddr address) = some b0 :=
      findBucket_of_inBucket _ _ _ h.keysNodup (h.uniq _) hb0
    by_cases hbe : b0 = B + cooldown
    · subst hbe
      rw [addWallet_eq_of_same cooldown address B s hmem hfb]
      have hmm : ∀ x, x ∈ s.members ↔ (x ∈ s.members ∨ x = normalizeAddr address) := by
        intro x
        constructor
        · exact Or.inl
        · rintro (hx | rfl) <;> [exact hx; exact hmem]
      exact ⟨hmm, inBucket_same s.expIndex (B + cooldown) _ hb0 (h.uniq _), h⟩
    · rw [addWallet_eq_of_move cooldown address B s b0 hmem hfb hbe]
      obtain ⟨v0, hv0, hnav0⟩ := hb0
      have hbk := inBucket_move_some s.expIndex b0 (B + cooldown) _ v0
        h.keysNodup hbe hv0 hnav0 (h.uniq _)
      have hmm : ∀ x, x ∈ setAdd s.members (normalizeAddr address) ↔
          (x ∈ s.members ∨ x = normalizeAddr address) := fun x => mem_setAdd _ _ x
      obtain ⟨hsn, hse⟩ := structural_move_some s.expIndex b0 (B + cooldown) _ v0
        h.keysNodup hbe hv0 h.bucketsNodup h.bucketsNonempty
      exact ⟨hmm, hbk, WFw_from_iffs s _ _ _ h hmm hbk
        (nodup_setAdd _ _ h.membersNodup)
        (keysNodup_moveToBucket _ _ _ _ h.keysNodup) hsn hse⟩
  · rw [addWallet_eq_of_new cooldown address B s hmem]
    have hnb : ∀ b, ¬ inBucket s.expIndex b (normalizeAddr address) := by
      intro b hbk
      exact hmem ((h.memIff _).mpr ⟨b, hbk⟩)
    have hbk := inBucket_move_none s.expIndex (B + cooldown) _ hnb
    have hmm : ∀ x, x ∈ setAdd s.members (normalizeAddr address) ↔
        (x ∈ s.members ∨ x = normalizeAddr address) := fun x => mem_setAdd _ _ x
    obtain ⟨hsn, hse⟩ := structural_move_none s.expIndex (B + cooldown) _
      h.bucketsNodup h.bucketsNonempty
    exact ⟨hmm, hbk, WFw_from_iffs s _ _ _ h hmm hbk
      (nodup_setAdd _ _ h.membersNodup)
      (keysNodup_moveToBucket _ _ _ _ h.keysNodup) hsn hse⟩

/-- Complete description of a wallet-cache cleanup on a well-formed state. -/
theorem cleanupWallet_spec (B : Nat) (s : WalletCache) (h : WFw s) :
    (∀ x, x ∈ (cleanupWalletAddressCache B s).members ↔
        (x ∈ s.members ∧ ¬ inBucket s.expIndex B x))
  ∧ (∀ b x, inBucket (cleanupWalletAddressCache B s).expIndex b x ↔
        (b ≠ B ∧ inBucket s.expIndex b x))
  ∧ WFw (cleanupWalletAddressCache B s) := by
  unfold cleanupWalletAddressCache
  cases hB : mapGet s.expIndex B with
  | none =>
      have hnb : ∀ x, ¬ inBucket s.expIndex B x := by
        rintro x ⟨v, hv, _⟩
        rw [hB] at hv; cases hv
      refine ⟨?_, ?_, h⟩
      · intro x
        exact ⟨fun hx => ⟨hx, hnb x⟩, fun hx => hx.1⟩
      · intro b x
        constructor
        · intro hbk
          refine ⟨?_, hbk⟩
          rintro rfl
          exact hnb x hbk
        · exact fun hx => hx.2
  | some v =>
      have hmm : ∀ x, x ∈ v.foldl setDel s.members ↔
          (x ∈ s.members ∧ ¬ inBucket s.expIndex B x) := by
        intro x
        rw [mem_foldl_setDel]
        constructor
        · rintro ⟨hx, hnv⟩
          refine ⟨hx, ?_⟩
          rintro ⟨w, hw, hxw⟩
          rw [hB] at hw; cases hw
          exact hnv hxw
        · rintro ⟨hx, hnb⟩
          refine ⟨hx, fun hxv => hnb ⟨v, hB, hxv⟩⟩
      have hbb : ∀ b x, inBucket (mapDel s.expIndex B) b x ↔
          (b ≠ B ∧ inBucket s.expIndex b x) := by
        intro b x
        by_cases hbB : b = B
        · subst hbB
          constructor
          · rintro ⟨w, hw, hxw⟩
            rw [mapGet_mapDel_self _ _ h.keysNodup] at hw
            cases hw
          · rintro ⟨hne, _⟩
            exact absurd rfl hne
        · unfold inBucket
          rw [mapGet_mapDel_ne _ _ _ hbB]
          exact ⟨fun hx => ⟨hbB, hx⟩, fun hx => hx.2⟩
      refine ⟨hmm, hbb, ?_⟩
      have hnodup : (v.foldl setDel s.members).Nodup := by
        have : ∀ (l : List String) (m : List String), m.Nodup → (l.foldl setDel m).Nodup := by
          intro l
          induction l with
          | nil => exact fun m hm => hm
          | cons a rest ih => exact fun m hm => ih _ (nodup_setDel _ _ hm)
        exact this v s.members h.membersNodup
      refine ⟨hnodup, nodup_mapKeys_mapDel _ _ h.keysNodup, ?_, ?_, ?_, ?_⟩
      · intro b w hw
        by_cases hbB : b = B
        · subst hbB
          rw [mapGet_mapDel_self _ _ h.keysNodup] at hw
          cases hw
        · rw [mapGet_mapDel_ne _ _ _ hbB] at hw
          exact h.bucketsNodup b w hw
      · intro b w hw
        by_cases hbB : b = B
        · subst hbB
          rw [mapGet_mapDel_self _ _ h.keysNodup] at hw
          cases hw
        · rw [mapGet_mapDel_ne _ _ _ hbB] at hw
          exact h.bucketsNonempty b w hw
      · intro x
        rw [hmm x]
        constructor
        · rintro ⟨hx, hnb⟩
          obtain ⟨b, hbk⟩ := (h.memIff x).mp hx
          refine ⟨b, (hbb b x).mpr ⟨?_, hbk⟩⟩
          rintro rfl
          exact hnb hbk
        · rintro ⟨b, hbk⟩
          rw [hbb b x] at hbk
          exact ⟨(h.memIff x).mpr ⟨b, hbk.2⟩, fun hBx => hbk.1 (h.uniq x b B hbk.2 hBx)⟩
      · intro x b1 b2 hb1 hb2
        rw [hbb b1 x] at hb1
        rw [hbb b2 x] at hb2
        exact h.uniq x b1 b2 hb1.2 hb2.2

/-!
## Effect of `updateContractAddressCache` and `cleanupContractAddressCache`
-/

theorem updateContract_eq_of_same (cooldown : Nat) (address : String) (B : Nat)
    (isNewContract : Bool) (s : ContractCache)
    (hsome : (mapGet (if isNewContract then
        mapSet s.members (normalizeAddr address) true else s.members)
        (normalizeAddr address)).isSome = true)
    (hfb : findBucket s.expIndex (normalizeAddr address) = some (B + cooldown * 10)) :
    updateContractAddressCache cooldown address B isNewContract s =
      { members := if isNewContract then
          mapSet s.members (normalizeAddr address) true else s.members
        expIndex := s.expIndex } := by
  simp only [updateContractAddressCache]
  rw [if_pos hsome, hfb, if_pos rfl]

theorem updateContract_eq_of_move (cooldown : Nat) (address : String) (B : Nat)
    (isNewContract : Bool) (s : ContractCache) (b0 : Nat)
    (hsome : (mapGet (if isNewContract then
        mapSet s.members (normalizeAddr address) true else s.members)
        (normalizeAddr address)).isSome = true)
    (hfb : findBucket s.expIndex (normalizeAddr address) = some b0)
    (hne : b0 ≠ B + cooldown * 10) :
    updateContractAddressCache cooldown address B isNewContract s =
      { members := if isNewContract then
          mapSet s.members (normalizeAddr address) true else s.members
        expIndex := moveToBucket s.expIndex (some b0) (B + cooldown * 10)
          (normalizeAddr address) } := by
  simp only [updateContractAddressCache]
  rw [if_pos hsome, hfb, if_neg (by simpa using hne)]

theorem updateContract_eq_of_fresh (cooldown : Nat) (address : String) (B : Nat)
    (isNewContract : Bool) (s : ContractCache)
    (hsome : (mapGet (if isNewContract then
        mapSet s.members (normalizeAddr address) true else s.members)
        (normalizeAddr address)).isSome = true)
    (hfb : findBucket s.expIndex (normalizeAddr address) = none) :
    updateContractAddressCache cooldown address B isNewContract s =
      { members := if isNewContract then
          mapSet s.members (normalizeAddr address) true else s.members
        expIndex := moveToBucket s.expIndex none (B + cooldown * 10)
          (normalizeAddr address) } := by
  simp only [updateContractAddressCache]
  rw [if_pos hsome, hfb, if_neg (by simp)]

/-- On a well-formed state, a guarded contract-cache upsert (a refresh of an
existing member, or an insert flagged `isNewContract`) registers the address
as a member mapped to `true`, scheduled in exactly the bucket
`currentBatch + cooldown * 10`, leaving everything else unchanged. -/
theorem updateContract_spec (cooldown : Nat) (address : String) (B : Nat)
    (isNewContract : Bool) (s : ContractCache) (h : WFc s)
    (hguard : isNewContract = true ∨
      (mapGet s.members (normalizeAddr address)).isSome = true) :
    (∀ x, (mapGet (updateContractAddressCache cooldown address B isNewContract s).members
        x).isSome = true ↔
        ((mapGet s.members x).isSome = true ∨ x = normalizeAddr address))
  ∧ (∀ b x, inBucket (updateContractAddressCache cooldown address B isNewContract s).expIndex
        b x ↔
        (if x = normalizeAddr address then b = B + cooldown * 10
         else inBucket s.expIndex b x))
  ∧ WFc (updateContractAddressCache cooldown address B isNewContract s) := by
  have hsome : (mapGet (if isNewContract then
      mapSet s.members (normalizeAddr address) true else s.members)
      (normalizeAddr address)).isSome = true := by
    cases isNewContract with
    | true => simp [mapGet_mapSet_self]
    | false =>
        rcases hguard with hg | hg
        · cases hg
        · simpa using hg
  have hmm : ∀ x, (mapGet (if isNewContract then
      mapSet s.members (normalizeAddr address) true else s.members) x).isSome = true ↔
      ((mapGet s.members x).isSome = true ∨ x = normalizeAddr address) := by
    intro x
    by_cases hx : x = normalizeAddr address
    · subst hx
      simp only [eq_self_iff_true, or_true, iff_true]
      exact hsome
    · cases isNewContract with
      | true =>
          rw [if_pos rfl, mapGet_mapSet_ne _ _ _ _ hx]
          simp [hx]
      | false => simp [hx]
  have hmv : ∀ x v, mapGet (if isNewContract then
      mapSet s.members (normalizeAddr address) true else s.members) x = some v →
      v = true := by
    intro x v hv
    cases isNewContract with
    | true =>
        rw [if_pos rfl] at hv
        by_cases hx : x = normalizeAddr address
        · subst hx
          rw [mapGet_mapSet_self] at hv
          cases hv; rfl
        · rw [mapGet_mapSet_ne _ _ _ _ hx] at hv
          exact h.valuesTrue x v hv
    | false =>
        rw [if_neg (by simp)] at hv
        exact h.valuesTrue x v hv
  have hmk : (mapKeys (if isNewContract then
      mapSet s.members (normalizeAddr address) true else s.members)).Nodup := by
    cases isNewContract with
    | true => exact nodup_mapKeys_mapSet _ _ _ h.memKeysNodup
    | false => exact h.memKeysNodup
  cases hfb : findBucket s.expIndex (normalizeAddr address) with
  | none =>
      rw [updateContract_eq_of_fresh cooldown address B isNewContract s hsome hfb]
      have hnb : ∀ b, ¬ inBucket s.expIndex b (normalizeAddr address) :=
        (findBucket_eq_none _ _ h.keysNodup).mp hfb
      have hbk := inBucket_move_none s.expIndex (B + cooldown * 10) _ hnb
      obtain ⟨hsn, hse⟩ := structural_move_none s.expIndex (B + cooldown * 10) _
        h.bucketsNodup h.bucketsNonempty
      exact ⟨hmm, hbk, WFc_from_iffs s _ _ _ h hmm hmv hmk hbk
        (keysNodup_moveToBucket _ _ _ _ h.keysNodup) hsn hse⟩
  | some b0 =>
      have hb0 : inBucket s.expIndex b0 (normalizeAddr address) :=
        findBucket_eq_some _ _ _ h.keysNodup hfb
      by_cases hbe : b0 = B + cooldown * 10
      · subst hbe
        rw [updateContract_eq_of_same cooldown address B isNewContract s hsome hfb]
        exact ⟨hmm, inBucket_same s.expIndex (B + cooldown * 10) _ hb0 (h.uniq _),
          WFc_from_iffs s _ _ _ h hmm hmv hmk
            (inBucket_same s.expIndex (B + cooldown * 10) _ hb0 (h.uniq _))
            h.keysNodup h.bucketsNodup h.bucketsNonempty⟩
      · rw [updateContract_eq_of_move cooldown address B isNewContract s b0 hsome hfb hbe]
        obtain ⟨v0, hv0, hnav0⟩ := hb0
        have hbk := inBucket_move_some s.expIndex b0 (B + cooldown * 10) _ v0
          h.keysNodup hbe hv0 hnav0 (h.uniq _)
        obtain ⟨hsn, hse⟩ := structural_move_some s.expIndex b0 (B + cooldown * 10) _ v0
          h.keysNodup hbe hv0 h.bucketsNodup h.bucketsNonempty
        exact ⟨hmm, hbk, WFc_from_iffs s _ _ _ h hmm hmv hmk hbk
          (keysNodup_moveToBucket _ _ _ _ h.keysNodup) hsn hse⟩

theorem mapGet_foldl_mapDel (l : List String) (m : List (String × Bool))
    (h : (mapKeys m).Nodup) (x : String) :
    mapGet (l.foldl (fun mm addr => mapDel mm addr) m) x =
      if x ∈ l then none else mapGet m x := by
  induction l generalizing m with
  | nil => simp
  | cons a rest ih =>
      rw [List.foldl_cons, ih (mapDel m a) (nodup_mapKeys_mapDel m a h)]
      by_cases hx : x ∈ rest
      · simp [hx]
      · rw [if_neg hx]
        by_cases hxa : x = a
        · subst hxa
          rw [if_pos (List.mem_cons_self _ _), mapGet_mapDel_self m x h]
        · rw [mapGet_mapDel_ne m a x hxa,
            if_neg (by simp [hxa, hx])]

theorem keysNodup_foldl_mapDel (l : List String) (m : List (String × Bool))
    (h : (mapKeys m).Nodup) :
    (mapKeys (l.foldl (fun mm addr => mapDel mm addr) m)).Nodup := by
  induction l generalizing m with
  | nil => exact h
  | cons a rest ih => exact ih _ (nodup_mapKeys_mapDel m a h)

/-- Complete description of a contract-cache cleanup on a well-formed state. -/
theorem cleanupContract_spec (B : Nat) (s : ContractCache) (h : WFc s) :
    (∀ x, (mapGet (cleanupContractAddressCache B s).members x).isSome = true ↔
        ((mapGet s.members x).isSome = true ∧ ¬ inBucket s.expIndex B x))
  ∧ (∀ b x, inBucket (cleanupContractAddressCache B s).expIndex b x ↔
        (b ≠ B ∧ inBucket s.expIndex b x))
  ∧ WFc (cleanupContractAddressCache B s) := by
  unfold cleanupContractAddressCache
  cases hB : mapGet s.expIndex B with
  | none =>
      have hnb : ∀ x, ¬ inBucket s.expIndex B x := by
        rintro x ⟨v, hv, _⟩
        rw [hB] at hv; cases hv
      refine ⟨?_, ?_, h⟩
      · intro x
        exact ⟨fun hx => ⟨hx, hnb x⟩, fun hx => hx.1⟩
      · intro b x
        constructor
        · intro hbk
          refine ⟨?_, hbk⟩
          rintro rfl
          exact hnb x hbk
        · exact fun hx => hx.2
  | some v =>
      have hmm : ∀ x, (mapGet (v.foldl (fun mm addr => mapDel mm addr) s.members)
          x).isSome = true ↔
          ((mapGet s.members x).isSome = true ∧ ¬ inBucket s.expIndex B x) := by
        intro x
        rw [mapGet_foldl_mapDel v s.members h.memKeysNodup x]
        by_cases hxv : x ∈ v
        · simp only [if_pos hxv]
          constructor
          · intro hf; cases hf
          · rintro ⟨_, hnb⟩
            exact absurd ⟨v, hB, hxv⟩ hnb
        · simp only [if_neg hxv]
          constructor
          · intro hx
            refine ⟨hx, ?_⟩
            rintro ⟨w, hw, hxw⟩
            rw [hB] at hw; cases hw
            exact hxv hxw
          · exact fun hx => hx.1
      have hbb : ∀ b x, inBucket (mapDel s.expIndex B) b x ↔
          (b ≠ B ∧ inBucket s.expIndex b x) := by
        intro b x
        by_cases hbB : b = B
        · subst hbB
          constructor
          · rintro ⟨w, hw, hxw⟩
            rw [mapGet_mapDel_self _ _ h.keysNodup] at hw
            cases hw
          · rintro ⟨hne, _⟩
            exact absurd rfl hne
        · unfold inBucket
          rw [mapGet_mapDel_ne _ _ _ hbB]
          exact ⟨fun hx => ⟨hbB, hx⟩, fun hx => hx.2⟩
      refine ⟨hmm, hbb, ?_⟩
      refine ⟨keysNodup_foldl_mapDel v s.members h.memKeysNodup, ?_,
        nodup_mapKeys_mapDel _ _ h.keysNodup, ?_, ?_, ?_, ?_⟩
      · intro x w hw
        rw [mapGet_foldl_mapDel v s.members h.memKeysNodup x] at hw
        by_cases hxv : x ∈ v
        · rw [if_pos hxv] at hw; cases hw
        · rw [if_neg hxv] at hw
          exact h.valuesTrue x w hw
      · intro b w hw
        by_cases hbB : b = B
        · subst hbB
          rw [mapGet_mapDel_self _ _ h.keysNodup] at hw
          cases hw
        · rw [mapGet_mapDel_ne _ _ _ hbB] at hw
          exact h.bucketsNodup b w hw
      · intro b w hw
        by_cases hbB : b = B
        · subst hbB
          rw [mapGet_mapDel_self _ _ h.keysNodup] at hw
          cases hw
        · rw [mapGet_mapDel_ne _ _ _ hbB] at hw
          exact h.bucketsNonempty b w hw
      · intro x
        rw [hmm x]
        constructor
        · rintro ⟨hx, hnb⟩
          obtain ⟨b, hbk⟩ := (h.memIff x).mp hx
          refine ⟨b, (hbb b x).mpr ⟨?_, hbk⟩⟩
          rintro rfl
          exact hnb hbk
        · rintro ⟨b, hbk⟩
          rw [hbb b x] at hbk
          exact ⟨(h.memIff x).mpr ⟨b, hbk.2⟩, fun hBx => hbk.1 (h.uniq x b B hbk.2 hBx)⟩
      · intro x b1 b2 hb1 hb2
        rw [hbb b1 x] at hb1
        rw [hbb b2 x] at hb2
        exact h.uniq x b1 b2 hb1.2 hb2.2

/-!
## Reachable cache states

`WalletEvolve` / `ContractEvolve` close the empty cache under arbitrary
upsert (`addToWalletAddressCache` / `updateContractAddressCache`) and
expire-batch (`cleanup*AddressCache`) operations. `ContractEvolveG` is the
guarded variant in which a refresh (`isNewContract = false`) is only applied
to an address already present in the classification map — the discipline
every call site of `updateContractAddressCache` in the repository follows.
-/

inductive WalletEvolve : WalletCache → Prop where
  | init : WalletEvolve emptyWalletCache
  | upsert (cooldown address B s) : WalletEvolve s →
      WalletEvolve (addToWalletAddressCache cooldown address B s)
  | expire (B s) : WalletEvolve s →
      WalletEvolve (cleanupWalletAddressCache B s)

inductive ContractEvolve : ContractCache → Prop where
  | init : ContractEvolve emptyContractCache
  | upsert (cooldown address B isNewContract s) : ContractEvolve s →
      ContractEvolve (updateContractAddressCache cooldown address B isNewContract s)
  | expire (B s) : ContractEvolve s →
      ContractEvolve (cleanupContractAddressCache B s)

inductive ContractEvolveG : ContractCache → Prop where
  | init : ContractEvolveG emptyContractCache
  | upsert (cooldown address B isNewContract s) : ContractEvolveG s →
      (isNewContract = true ∨
        (mapGet s.members (normalizeAddr address)).isSome = true) →
      ContractEvolveG (updateContractAddressCache cooldown address B isNewContract s)
  | expire (B s) : ContractEvolveG s →
      ContractEvolveG (cleanupContractAddressCache B s)

theorem walletEvolve_WF {s : WalletCache} (h : WalletEvolve s) : WFw s := by
  induction h with
  | init => exact WFw_empty
  | upsert cooldown address B s _ ih => exact (addWallet_spec cooldown address B s ih).2.2
  | expire B s _ ih => exact (cleanupWallet_spec B s ih).2.2

theorem contractEvolveG_WF {s : ContractCache} (h : ContractEvolveG s) : WFc s := by
  induction h with
  | init => exact WFc_empty
  | upsert cooldown address B isNewContract s _ hg ih =>
      exact (updateContract_spec cooldown address B isNewContract s ih hg).2.2
  | expire B s _ ih => exact (cleanupContract_spec B s ih).2.2

/-- C1 (amended): starting from the empty caches, the members ↔ buckets
correspondence and bucket uniqueness hold after every sequence of upsert
and expire-batch operations — unconditionally for the wallet cooldown
cache, and for the contract classification cache under the guard (observed
at every call site) that a refresh upsert (`isNewContract = false`) is only
applied to an address already in the classification map. -/
theorem eligibility_cache_bucket_invariant :
    (∀ s, WalletEvolve s →
      (∀ x, x ∈ s.members ↔ ∃ b, inBucket s.expIndex b x) ∧
      (∀ x b1 b2, inBucket s.expIndex b1 x → inBucket s.expIndex b2 x → b1 = b2))
  ∧ (∀ s, ContractEvolveG s →
      (∀ x, (mapGet s.members x).isSome = true ↔ ∃ b, inBucket s.expIndex b x) ∧
      (∀ x b1 b2, inBucket s.expIndex b1 x → inBucket s.expIndex b2 x → b1 = b2)) := by
  constructor
  · intro s h
    have hw := walletEvolve_WF h
    exact ⟨hw.memIff, hw.uniq⟩
  · intro s h
    have hc := contractEvolveG_WF h
    exact ⟨hc.memIff, hc.uniq⟩

/-- Witness for the amended C1 invariant at concrete reachable states. -/
theorem eligibility_cache_bucket_invariant_witness :
    ("a" ∈ (addToWalletAddressCache 30 "a" 1 emptyWalletCache).members ↔
      ∃ b, inBucket (addToWalletAddressCache 30 "a" 1 emptyWalletCache).expIndex b "a")
  ∧ ((mapGet (updateContractAddressCache 30 "a" 1 true emptyContractCache).members
      "a").isSome = true ↔
      ∃ b, inBucket (updateContractAddressCache 30 "a" 1 true emptyContractCache).expIndex
        b "a") :=
  ⟨((eligibility_cache_bucket_invariant.1 _
      (WalletEvolve.upsert 30 "a" 1 emptyWalletCache WalletEvolve.init)).1 "a"),
   ((eligibility_cache_bucket_invariant.2 _
      (ContractEvolveG.upsert 30 "a" 1 true emptyContractCache ContractEvolveG.init
        (Or.inl rfl))).1 "a")⟩

/-- C1 counterexample: as literally stated — over every sequence of upsert
and expire-batch operations on the contract classification cache — the
invariant is false: a single `updateContractAddressCache` call with
`isNewContract = false` on an address that is not yet a member creates the
expiration-bucket entry for batch `1 + 30·10 = 301` without creating the
membership entry. -/
theorem eligibility_cache_bucket_invariant_counterexample :
    ContractEvolve (updateContractAddressCache 30 "a" 1 false emptyContractCache)
    ∧ inBucket (updateContractAddressCache 30 "a" 1 false emptyContractCache).expIndex
        301 "a"
    ∧ mapGet (updateContractAddressCache 30 "a" 1 false emptyContractCache).members
        "a" = none := by
  refine ⟨ContractEvolve.upsert 30 "a" 1 false emptyContractCache ContractEvolve.init,
    ⟨["a"], rfl, List.mem_singleton.mpr rfl⟩, rfl⟩

/-!
## C6: the cooldown window of a wallet upsert
-/

/-- Invariant carried across cleanups: well-formed, the address is a member,
and its one scheduled bucket is `E`. -/
def WalletPinned (na : String) (E : Nat) (t : WalletCache) : Prop :=
  WFw t ∧ na ∈ t.members ∧ ∀ b, inBucket t.expIndex b na ↔ b = E

theorem walletPinned_cleanup (na : String) (E : Nat) (t : WalletCache)
    (h : WalletPinned na E t) (b : Nat) (hb : b ≠ E) :
    WalletPinned na E (cleanupWalletAddressCache b t) := by
  obtain ⟨hWF, hmem, hbk⟩ := h
  obtain ⟨hm, hb', hWF'⟩ := cleanupWallet_spec b t hWF
  refine ⟨hWF', ?_, ?_⟩
  · refine (hm na).mpr ⟨hmem, ?_⟩
    intro hin
    exact hb ((hbk b).mp hin)
  · intro b'
    rw [hb' b' na]
    constructor
    · rintro ⟨_, hin⟩
      exact (hbk b').mp hin
    · rintro rfl
      exact ⟨fun hEq => hb hEq.symm, (hbk b').mpr rfl⟩

theorem walletPinned_cleanup_fold (na : String) (E : Nat) (l : List Nat)
    (t : WalletCache) (h : WalletPinned na E t) (hl : ∀ b ∈ l, b ≠ E) :
    WalletPinned na E (l.foldl (fun st b => cleanupWalletAddressCache b st) t) := by
  induction l generalizing t with
  | nil => exact h
  | cons b rest ih =>
      rw [List.foldl_cons]
      exact ih _ (walletPinned_cleanup na E t h b (hl b (List.mem_cons_self _ _)))
        (fun b' hb' => hl b' (List.mem_cons_of_mem _ hb'))

/-- C6: after `addToWalletAddressCache(a, B)` (expiry window `W =
cooldownBatches`) on a well-formed cache, the address is in the cache, it
stays in the cache across `cleanupWalletAddressCache` applied at any batches
in `[B, B+W)`, and `cleanupWalletAddressCache (B+W)` removes it. -/
theorem wallet_upsert_cooldown_window (cooldown : Nat) (address : String) (B : Nat)
    (s : WalletCache) (h : WFw s) (l : List Nat)
    (hl : ∀ b ∈ l, B ≤ b ∧ b < B + cooldown) :
    isWalletAddressInCache (addToWalletAddressCache cooldown address B s) address = true
  ∧ isWalletAddressInCache
      (l.foldl (fun st b => cleanupWalletAddressCache b st)
        (addToWalletAddressCache cooldown address B s)) address = true
  ∧ isWalletAddressInCache
      (cleanupWalletAddressCache (B + cooldown)
        (l.foldl (fun st b => cleanupWalletAddressCache b st)
          (addToWalletAddressCache cooldown address B s))) address = false := by
  obtain ⟨hm, hb, hWF1⟩ := addWallet_spec cooldown address B s h
  have hp1 : WalletPinned (normalizeAddr address) (B + cooldown)
      (addToWalletAddressCache cooldown address B s) := by
    refine ⟨hWF1, (hm _).mpr (Or.inr rfl), ?_⟩
    intro b
    rw [hb b (normalizeAddr address), if_pos rfl]
  have hp2 := walletPinned_cleanup_fold (normalizeAddr address) (B + cooldown) l
    (addToWalletAddressCache cooldown address B s) hp1
    (fun b hbmem => Nat.ne_of_lt (hl b hbmem).2)
  obtain ⟨hWF2, hmem2, hbk2⟩ := hp2
  obtain ⟨hm3, _, _⟩ := cleanupWallet_spec (B + cooldown) _ hWF2
  refine ⟨?_, ?_, ?_⟩
  · unfold isWalletAddressInCache
    exact (setHas_iff _ _).mpr ((hm _).mpr (Or.inr rfl))
  · unfold isWalletAddressInCache
    exact (setHas_iff _ _).mpr hmem2
  · unfold isWalletAddressInCache
    rw [Bool.eq_false_iff]
    intro hcontra
    have hmem3 := (setHas_iff _ _).mp hcontra
    have := ((hm3 _).mp hmem3).2
    exact this ((hbk2 (B + cooldown)).mpr rfl)

/-- Witness for C6 at a concrete input: cooldown 2, upsert at batch 1,
cleanups at batches 1 and 2, final cleanup at batch 3. -/
theorem wallet_upsert_cooldown_window_witness :
    isWalletAddressInCache (addToWalletAddressCache 2 "a" 1 emptyWalletCache) "a" = true
  ∧ isWalletAddressInCache
      ([1, 2].foldl (fun st b => cleanupWalletAddressCache b st)
        (addToWalletAddressCache 2 "a" 1 emptyWalletCache)) "a" = true
  ∧ isWalletAddressInCache
      (cleanupWalletAddressCache 3
        ([1, 2].foldl (fun st b => cleanupWalletAddressCache b st)
          (addToWalletAddressCache 2 "a" 1 emptyWalletCache))) "a" = false :=
  wallet_upsert_cooldown_window 2 "a" 1 emptyWalletCache WFw_empty [1, 2] (by decide)

/-!
## C9: idempotence of upsert at the same target bucket
-/

theorem mapSet_eq_self {κ β : Type} [DecidableEq κ] (m : List (κ × β)) (k : κ) (v : β)
    (h : mapGet m k = some v) : mapSet m k v = m := by
  induction m with
  | nil => cases h
  | cons p rest ih =>
      by_cases hp : p.1 = k
      · simp only [mapGet, if_pos hp, Option.some.injEq] at h
        simp only [mapSet, if_pos hp]
        cases p with
        | mk k' v' =>
            simp only at hp h
            rw [hp, h]
      · simp only [mapGet, if_neg hp] at h
        simp only [mapSet, if_neg hp, ih h]

/-- C9: re-upserting an address whose scheduled expiry bucket already equals
the target batch is a no-op on both caches: the resulting state is literally
unchanged (members and every bucket). For the contract cache this holds for
both values of `isNewContract`, the stored value being `true` on any
well-formed state. -/
theorem upsert_same_target_noop :
    (∀ cooldown address B (s : WalletCache), WFw s →
        findBucket s.expIndex (normalizeAddr address) = some (B + cooldown) →
        addToWalletAddressCache cooldown address B s = s)
  ∧ (∀ cooldown address B isNewContract (s : ContractCache), WFc s →
        findBucket s.expIndex (normalizeAddr address) = some (B + cooldown * 10) →
        updateContractAddressCache cooldown address B isNewContract s = s) := by
  constructor
  · intro cooldown address B s h hfb
    have hmem : normalizeAddr address ∈ s.members :=
      (h.memIff _).mpr ⟨B + cooldown, findBucket_eq_some _ _ _ h.keysNodup hfb⟩
    exact addWallet_eq_of_same cooldown address B s hmem hfb
  · intro cooldown address B isNewContract s h hfb
    have hmem : (mapGet s.members (normalizeAddr address)).isSome = true :=
      (h.memIff _).mpr ⟨B + cooldown * 10, findBucket_eq_some _ _ _ h.keysNodup hfb⟩
    obtain ⟨v, hv⟩ := Option.isSome_iff_exists.mp hmem
    have hvt : v = true := h.valuesTrue _ _ hv
    subst hvt
    have hset : mapSet s.members (normalizeAddr address) true = s.members :=
      mapSet_eq_self _ _ _ hv
    have heq := updateContract_eq_of_same cooldown address B isNewContract s
      (by cases isNewContract with
        | true => rw [if_pos rfl, mapGet_mapSet_self]; rfl
        | false => rw [if_neg (by simp)]; exact hmem) hfb
    rw [heq]
    cases isNewContract with
    | true =>
        rw [if_pos rfl, hset]
    | false =>
        rw [if_neg (by simp)]

/-- Witness for C9: re-upserting `"a"` (scheduled at batch 3 after an upsert
with cooldown 2 at batch 1) with the same target is a no-op. -/
theorem upsert_same_target_noop_witness :
    addToWalletAddressCache 2 "a" 1 (addToWalletAddressCache 2 "a" 1 emptyWalletCache) =
      addToWalletAddressCache 2 "a" 1 emptyWalletCache
  ∧ updateContractAddressCache 3 "a" 1 false
      (updateContractAddressCache 3 "a" 1 true emptyContractCache) =
      updateContractAddressCache 3 "a" 1 true emptyContractCache :=
  ⟨upsert_same_target_noop.1 2 "a" 1 (addToWalletAddressCache 2 "a" 1 emptyWalletCache)
      (addWallet_spec 2 "a" 1 emptyWalletCache WFw_empty).2.2 rfl,
   upsert_same_target_noop.2 3 "a" 1 false
      (updateContractAddressCache 3 "a" 1 true emptyContractCache)
      (updateContract_spec 3 "a" 1 true emptyContractCache WFc_empty (Or.inl rfl)).2.2 rfl⟩

/-!
## Address selector and contract classifier (`src/addressSelector.js`)

The remote probe `publicClient.getCode` is an oracle parameter: it either
fails (transport error) or returns the code at the address (`none` models
`undefined`, i.e. no deployed code). `Math.random`-driven shuffling is
parameterized by an oracle `rand` supplying the index drawn at each step.
Suspension points of the JS `async` functions touch no wallet-cache state,
so a call is modelled atomically; probes within a 50-address sub-batch are
applied in order (their cache updates touch pairwise distinct keys).
-/

theorem charOfNat_toNat (n : Nat) (h : n.isValidChar) : (Char.ofNat n).toNat = n := by
  unfold Char.ofNat
  rw [dif_pos h]
  unfold Char.ofNatAux Char.toNat
  simp [UInt32.toNat, BitVec.toNat_ofNatLt]

theorem toLower_toLower (c : Char) : c.toLower.toLower = c.toLower := by
  unfold Char.toLower
  by_cases h : c.toNat ≥ 65 ∧ c.toNat ≤ 90
  · rw [if_pos h]
    have hval : (c.toNat + 32).isValidChar := Or.inl (by omega)
    have ht : (Char.ofNat (c.toNat + 32)).toNat = c.toNat + 32 :=
      charOfNat_toNat _ hval
    rw [if_neg]
    rw [ht]
    omega
  · rw [if_neg h, if_neg h]

theorem normalizeAddr_idem (s : String) :
    normalizeAddr (normalizeAddr s) = normalizeAddr s := by
  unfold normalizeAddr
  rw [show (String.mk (s.data.map Char.toLower)).data = s.data.map Char.toLower from rfl,
    List.map_map]
  exact congrArg String.mk (List.map_congr_left (fun c _ => toLower_toLower c))

/-- Outcome of the remote `getCode` probe. -/
inductive ProbeOutcome where
  | ok (code : Option String)
  | fail
deriving DecidableEq

/-- Result of `isContractAddress`: the boolean, the contract cache after
the call, and whether the remote probe was invoked. -/
structure ClassifyResult where
  isContract : Bool
  cache : ContractCache
  probed : Bool
deriving DecidableEq

/-- `isContractAddress(address)` from `addressSelector.js`: cache hit
returns the cached value after refreshing its expiry; cache miss probes,
caches only a positive result, and resolves to `false` (the fail-safe)
when the probe fails. `code && code.length > 2` is the truthiness of the
returned value. -/
def isContractAddress (cooldown cB : Nat) (probe : String → ProbeOutcome)
    (address : String) (cc : ContractCache) : ClassifyResult :=
  let normalizedAddress := normalizeAddr address
  if isContractAddressInCache cc normalizedAddress then
    let cc1 := updateContractAddressCache cooldown normalizedAddress cB false cc
    { isContract := (getContractAddressFromCache cc1 normalizedAddress).getD false
      cache := cc1
      probed := false }
  else
    match probe address with
    | ProbeOutcome.fail => { isContract := false, cache := cc, probed := true }
    | ProbeOutcome.ok code =>
        let isContract : Bool :=
          match code with
          | none => false
          | some c => decide (2 < c.length)
        let cc1 := if isContract
          then updateContractAddressCache cooldown normalizedAddress cB true cc
          else cc
        { isContract := isContract, cache := cc1, probed := true }

/-- The known-contract drop test in the partition loop of
`selectRandomAddresses` (`isContractAddressInCache(normalizedAddress) &&
getContractAddressFromCache(normalizedAddress) === true`). -/
def dropAsContract (cc : ContractCache) (address : String) : Bool :=
  isContractAddressInCache cc (normalizeAddr address) &&
    decide (getContractAddressFromCache cc (normalizeAddr address) = some true)

/-- The partition loop of `selectRandomAddresses`: the addresses kept
directly from the cache (`preFilteredAddresses`) and those with unknown
contract status (`unknownContractStatus`), in candidate order. -/
def selectPartition (wc : WalletCache) (cc : ContractCache)
    (addresses : List String) : List String × List String :=
  (addresses.filter (fun address =>
      !dropAsContract cc address &&
      !isWalletAddressInCache wc (normalizeAddr address) &&
      isContractAddressInCache cc (normalizeAddr address)),
   addresses.filter (fun address =>
      !dropAsContract cc address &&
      !isWalletAddressInCache wc (normalizeAddr address) &&
      !isContractAddressInCache cc (normalizeAddr address)))

/-- `for (let i = 0; i < unknownContractStatus.length; i += batchSize)`:
slices of `batchSize` in order. Structural recursion on a fuel that starts
at the list length (each step strictly shortens the list, so the
fuel-exhausted fallback is unreachable). -/
def chunksOfAux (n : Nat) : Nat → List String → List (List String)
  | _, [] => []
  | 0, x :: rest => [x :: rest]
  | fuel + 1, x :: rest => (x :: rest.take (n - 1)) :: chunksOfAux n fuel (rest.drop (n - 1))

def chunksOf (n : Nat) (l : List String) : List (List String) :=
  chunksOfAux n l.length l

/-- One 50-address sub-batch of contract checks: each non-contract result
is appended to the eligible pool, and the classifier threads the contract
cache. -/
def classifyFold (cooldown cB : Nat) (probe : String → ProbeOutcome)
    (acc : List String × ContractCache) (chunk : List String) :
    List String × ContractCache :=
  chunk.foldl (fun acc2 address =>
    let r := isContractAddress cooldown cB probe address acc2.2
    (if r.isContract then acc2.1 else acc2.1 ++ [address], r.cache)) acc

/-- The sub-batch loop with its early stop once the pool reaches
`count * 2`. -/
def probeChunks (cooldown cB count : Nat) (probe : String → ProbeOutcome) :
    List (List String) → List String → ContractCache →
    List String × ContractCache
  | [], pre, cc => (pre, cc)
  | chunk :: rest, pre, cc =>
      let acc := classifyFold cooldown cB probe (pre, cc) chunk
      if count * 2 ≤ acc.1.length then acc
      else probeChunks cooldown cB count probe rest acc.1 acc.2

/-- In-place Fisher–Yates swap `[a[i], a[j]] = [a[j], a[i]]`. -/
def swapIdx (l : List String) (i j : Nat) : List String :=
  (l.set i (l.getD j "")).set j (l.getD i "")

/-- The shuffle loop `for (let i = length - 1; i > 0; i--)`, drawing
`j = rand i % (i + 1)`. -/
def shuffleAux (rand : Nat → Nat) : Nat → List String → List String
  | 0, l => l
  | i + 1, l => shuffleAux rand i (swapIdx l (i + 1) (rand (i + 1) % (i + 2)))

/-- `shuffleAddresses` from `addressSelector.js`. -/
def shuffleAddresses (rand : Nat → Nat) (l : List String) : List String :=
  shuffleAux rand (l.length - 1) l

/-- Pool construction inside `selectRandomAddresses`: partition, then — if
the cached pool is not already `≥ count * 2` and unknowns exist — resolve
unknowns in sub-batches of 50. -/
def selectPool (cooldown cB count : Nat) (probe : String → ProbeOutcome)
    (addresses : List String) (wc : WalletCache) (cc : ContractCache) :
    List String × ContractCache :=
  let pre0 := (selectPartition wc cc addresses).1
  let unk := (selectPartition wc cc addresses).2
  if count * 2 ≤ pre0.length then (pre0, cc)
  else if 0 < unk.length then
    probeChunks cooldown cB count probe (chunksOf 50 unk) pre0 cc
  else (pre0, cc)

/-- Result of `selectRandomAddresses`: the selection and both caches after
the call. -/
structure SelectResult where
  selected : List String
  wallet : WalletCache
  contract : ContractCache

/-- `selectRandomAddresses(addresses, count)` from `addressSelector.js`,
at wallet-cache batch `wB` and contract-cache batch `cB`. -/
def selectRandomAddresses (cooldown wB cB count : Nat)
    (probe : String → ProbeOutcome) (rand : Nat → Nat)
    (addresses : List String) (wc : WalletCache) (cc : ContractCache) :
    SelectResult :=
  let pc := selectPool cooldown cB count probe addresses wc cc
  if pc.1.length = 0 then ⟨[], wc, pc.2⟩
  else
    let shuffled := shuffleAddresses rand pc.1
    let finalCount := min count shuffled.length
    let selected := shuffled.take finalCount
    ⟨selected,
     selected.foldl (fun w address => addToWalletAddressCache cooldown address wB w) wc,
     pc.2⟩

/-!
## The shuffle is a permutation
-/

theorem cons_set_perm (t : List String) (j : Nat) (a : String) (hj : j < t.length) :
    ((t.getD j "") :: t.set j a).Perm (a :: t) := by
  induction t generalizing j with
  | nil => cases hj
  | cons b t' ih =>
      cases j with
      | zero =>
          simp only [List.getD_cons_zero, List.set_cons_zero]
          exact List.Perm.swap a b t'
      | succ j' =>
          simp only [List.getD_cons_succ, List.set_cons_succ]
          have hj' : j' < t'.length := by
            simpa using hj
          exact (List.Perm.swap b _ _).trans
            ((List.Perm.cons b (ih j' hj')).trans (List.Perm.swap a b t'))

theorem swapIdx_perm (l : List String) (i j : Nat) (hi : i < l.length)
    (hj : j < l.length) : (swapIdx l i j).Perm l := by
  induction l generalizing i j with
  | nil => cases hi
  | cons a t ih =>
      cases i with
      | zero =>
          cases j with
          | zero =>
              simp [swapIdx]
          | succ j' =>
              have hj' : j' < t.length := by simpa using hj
              simp only [swapIdx, List.getD_cons_succ, List.getD_cons_zero,
                List.set_cons_zero, List.set_cons_succ]
              exact cons_set_perm t j' a hj'
      | succ i' =>
          have hi' : i' < t.length := by simpa using hi
          cases j with
          | zero =>
              simp only [swapIdx, List.getD_cons_zero, List.getD_cons_succ,
                List.set_cons_succ, List.set_cons_zero]
              exact cons_set_perm t i' a hi'
          | succ j' =>
              have hj' : j' < t.length := by simpa using hj
              simp only [swapIdx, List.getD_cons_succ, List.set_cons_succ]
              exact List.Perm.cons a (ih i' j' hi' hj')

theorem swapIdx_length (l : List String) (i j : Nat) :
    (swapIdx l i j).length = l.length := by
  simp [swapIdx]

theorem shuffleAux_perm (rand : Nat → Nat) (i : Nat) :
    ∀ l : List String, i < l.length → (shuffleAux rand i l).Perm l := by
  induction i with
  | zero => intro l _; exact List.Perm.refl l
  | succ i' ih =>
      intro l hi
      have hj : rand (i' + 1) % (i' + 2) < l.length :=
        lt_of_le_of_lt (Nat.le_of_lt_succ (Nat.mod_lt _ (Nat.succ_pos _))) hi
      have hswap := swapIdx_perm l (i' + 1) (rand (i' + 1) % (i' + 2)) hi hj
      have hlen : i' < (swapIdx l (i' + 1) (rand (i' + 1) % (i' + 2))).length := by
        rw [swapIdx_length]
        exact Nat.lt_of_succ_lt hi
      exact (ih _ hlen).trans hswap

theorem shuffleAddresses_perm (rand : Nat → Nat) (l : List String) :
    (shuffleAddresses rand l).Perm l := by
  unfold shuffleAddresses
  cases l with
  | nil => exact List.Perm.refl _
  | cons a t =>
      exact shuffleAux_perm rand (a :: t).length.pred (a :: t)
        (Nat.pred_lt (by simp))

/-!
## The probing loop appends a subsequence of the unknown-status list
-/

theorem chunksOfAux_join (n : Nat) :
    ∀ (fuel : Nat) (l : List String), l.length ≤ fuel →
      (chunksOfAux n fuel l).flatten = l := by
  intro fuel
  induction fuel with
  | zero =>
      intro l hl
      cases l with
      | nil => rfl
      | cons x rest => simp at hl
  | succ fuel ih =>
      intro l hl
      cases l with
      | nil => rfl
      | cons x rest =>
          rw [chunksOfAux, List.flatten_cons]
          rw [ih (rest.drop (n - 1))
            (by simp only [List.length_drop]; simp at hl; omega)]
          simp [List.take_append_drop]

theorem chunksOf_join (n : Nat) (l : List String) : (chunksOf n l).flatten = l :=
  chunksOfAux_join n l.length l (Nat.le_refl _)

theorem classifyFold_append (cooldown cB : Nat) (probe : String → ProbeOutcome)
    (chunk : List String) :
    ∀ pre cc, ∃ w cc', classifyFold cooldown cB probe (pre, cc) chunk = (pre ++ w, cc')
      ∧ w.Sublist chunk := by
  induction chunk with
  | nil =>
      intro pre cc
      exact ⟨[], cc, by simp [classifyFold], List.Sublist.refl _⟩
  | cons address rest ih =>
      intro pre cc
      rw [show classifyFold cooldown cB probe (pre, cc) (address :: rest) =
        classifyFold cooldown cB probe
          ((if (isContractAddress cooldown cB probe address cc).isContract
            then pre else pre ++ [address]),
           (isContractAddress cooldown cB probe address cc).cache) rest from rfl]
      by_cases hic : (isContractAddress cooldown cB probe address cc).isContract
      · obtain ⟨w, cc', heq, hsub⟩ :=
          ih pre (isContractAddress cooldown cB probe address cc).cache
        rw [if_pos hic]
        exact ⟨w, cc', heq, List.sublist_cons_of_sublist address hsub⟩
      · obtain ⟨w, cc', heq, hsub⟩ :=
          ih (pre ++ [address]) (isContractAddress cooldown cB probe address cc).cache
        rw [if_neg hic]
        refine ⟨address :: w, cc', ?_, List.Sublist.cons₂ address hsub⟩
        rw [heq, List.append_assoc]
        rfl

theorem probeChunks_append (cooldown cB count : Nat) (probe : String → ProbeOutcome)
    (chunks : List (List String)) :
    ∀ pre cc, ∃ u cc', probeChunks cooldown cB count probe chunks pre cc = (pre ++ u, cc')
      ∧ u.Sublist chunks.flatten := by
  induction chunks with
  | nil =>
      intro pre cc
      exact ⟨[], cc, by simp [probeChunks], List.Sublist.refl _⟩
  | cons chunk rest ih =>
      intro pre cc
      obtain ⟨w, cc', heq, hsub⟩ := classifyFold_append cooldown cB probe chunk pre cc
      rw [show probeChunks cooldown cB count probe (chunk :: rest) pre cc =
        (if count * 2 ≤ (classifyFold cooldown cB probe (pre, cc) chunk).1.length
         then classifyFold cooldown cB probe (pre, cc) chunk
         else probeChunks cooldown cB count probe rest
           (classifyFold cooldown cB probe (pre, cc) chunk).1
           (classifyFold cooldown cB probe (pre, cc) chunk).2) from rfl, heq]
      by_cases hstop : count * 2 ≤ (pre ++ w).length
      · rw [if_pos hstop]
        exact ⟨w, cc', rfl, by
          rw [List.flatten_cons]
          exact hsub.trans (List.sublist_append_left chunk rest.flatten)⟩
      · rw [if_neg hstop]
        obtain ⟨u2, cc2, heq2, hsub2⟩ := ih (pre ++ w) cc'
        refine ⟨w ++ u2, cc2, by rw [heq2, List.append_assoc], ?_⟩
        rw [List.flatten_cons]
        exact List.Sublist.append hsub hsub2

theorem selectPool_append (cooldown cB count : Nat) (probe : String → ProbeOutcome)
    (addresses : List String) (wc : WalletCache) (cc : ContractCache) :
    ∃ u, (selectPool cooldown cB count probe addresses wc cc).1 =
        (selectPartition wc cc addresses).1 ++ u
      ∧ u.Sublist (selectPartition wc cc addresses).2 := by
  unfold selectPool
  by_cases h1 : count * 2 ≤ (selectPartition wc cc addresses).1.length
  · rw [if_pos h1]
    exact ⟨[], by simp⟩
  · rw [if_neg h1]
    by_cases h2 : 0 < (selectPartition wc cc addresses).2.length
    · rw [if_pos h2]
      obtain ⟨u, cc', heq, hsub⟩ := probeChunks_append cooldown cB count probe
        (chunksOf 50 (selectPartition wc cc addresses).2)
        (selectPartition wc cc addresses).1 cc
      rw [chunksOf_join] at hsub
      exact ⟨u, by rw [heq], hsub⟩
    · rw [if_neg h2]
      exact ⟨[], by simp⟩

/-!
## The eligible pool: no duplicates, no cooldown members
-/

theorem map_nodup_inj {α β : Type} (f : α → β) (l : List α)
    (h : (l.map f).Nodup) :
    ∀ x1 ∈ l, ∀ x2 ∈ l, f x1 = f x2 → x1 = x2 := by
  induction l with
  | nil => intro x1 hx1; cases hx1
  | cons a rest ih =>
      rw [List.map_cons, List.nodup_cons] at h
      intro x1 hx1 x2 hx2 hf
      rcases List.mem_cons.mp hx1 with rfl | hx1' <;>
        rcases List.mem_cons.mp hx2 with rfl | hx2'
      · rfl
      · exact absurd (hf ▸ List.mem_map_of_mem f hx2') h.1
      · exact absurd (hf ▸ List.mem_map_of_mem f hx1') h.1
      · exact ih h.2 x1 hx1' x2 hx2' hf

theorem isWalletAddressInCache_normalize (wc : WalletCache) (x : String) :
    isWalletAddressInCache wc (normalizeAddr x) = isWalletAddressInCache wc x := by
  unfold isWalletAddressInCache
  rw [normalizeAddr_idem]

theorem selectPartition_fst_pred (wc : WalletCache) (cc : ContractCache)
    (addresses : List String) (x : String)
    (hx : x ∈ (selectPartition wc cc addresses).1) :
    x ∈ addresses ∧ isWalletAddressInCache wc (normalizeAddr x) = false ∧
    isContractAddressInCache cc (normalizeAddr x) = true := by
  unfold selectPartition at hx
  obtain ⟨hmem, hpred⟩ := List.mem_filter.mp hx
  simp only [Bool.and_eq_true, Bool.not_eq_true'] at hpred
  exact ⟨hmem, hpred.1.2, hpred.2⟩

theorem selectPartition_snd_pred (wc : WalletCache) (cc : ContractCache)
    (addresses : List String) (x : String)
    (hx : x ∈ (selectPartition wc cc addresses).2) :
    x ∈ addresses ∧ isWalletAddressInCache wc (normalizeAddr x) = false ∧
    isContractAddressInCache cc (normalizeAddr x) = false := by
  unfold selectPartition at hx
  obtain ⟨hmem, hpred⟩ := List.mem_filter.mp hx
  simp only [Bool.and_eq_true, Bool.not_eq_true'] at hpred
  exact ⟨hmem, hpred.1.2, hpred.2⟩

theorem selectPool_mem (cooldown cB count : Nat) (probe : String → ProbeOutcome)
    (addresses : List String) (wc : WalletCache) (cc : ContractCache) (x : String)
    (hx : x ∈ (selectPool cooldown cB count probe addresses wc cc).1) :
    x ∈ addresses ∧ isWalletAddressInCache wc (normalizeAddr x) = false := by
  obtain ⟨u, heq, hsub⟩ := selectPool_append cooldown cB count probe addresses wc cc
  rw [heq] at hx
  rcases List.mem_append.mp hx with h1 | h2
  · obtain ⟨hm, hw, _⟩ := selectPartition_fst_pred wc cc addresses x h1
    exact ⟨hm, hw⟩
  · obtain ⟨hm, hw, _⟩ := selectPartition_snd_pred wc cc addresses x (hsub.mem h2)
    exact ⟨hm, hw⟩

theorem selectPool_map_nodup (cooldown cB count : Nat) (probe : String → ProbeOutcome)
    (addresses : List String) (wc : WalletCache) (cc : ContractCache)
    (hnd : (addresses.map normalizeAddr).Nodup) :
    ((selectPool cooldown cB count probe addresses wc cc).1.map normalizeAddr).Nodup := by
  obtain ⟨u, heq, hsub⟩ := selectPool_append cooldown cB count probe addresses wc cc
  rw [heq, List.map_append, List.nodup_append]
  have hsub1 : ((selectPartition wc cc addresses).1.map normalizeAddr).Sublist
      (addresses.map normalizeAddr) :=
    List.Sublist.map normalizeAddr (List.filter_sublist addresses)
  have hsub2 : (u.map normalizeAddr).Sublist (addresses.map normalizeAddr) :=
    List.Sublist.map normalizeAddr
      (hsub.trans (List.filter_sublist addresses))
  refine ⟨hsub1.nodup hnd, hsub2.nodup hnd, ?_⟩
  intro y hy1 hy2
  obtain ⟨x1, hx1, rfl⟩ := List.mem_map.mp hy1
  obtain ⟨x2, hx2, hfx⟩ := List.mem_map.mp hy2
  obtain ⟨hm1, _, hc1⟩ := selectPartition_fst_pred wc cc addresses x1 hx1
  obtain ⟨hm2, _, hc2⟩ := selectPartition_snd_pred wc cc addresses x2 (hsub.mem hx2)
  have hx12 : x1 = x2 :=
    map_nodup_inj normalizeAddr addresses hnd x1 hm1 x2 hm2 hfx.symm
  rw [hx12, hc2] at hc1
  cases hc1

theorem selectRandomAddresses_selected_cases (cooldown wB cB count : Nat)
    (probe : String → ProbeOutcome) (rand : Nat → Nat) (addresses : List String)
    (wc : WalletCache) (cc : ContractCache) :
    (selectRandomAddresses cooldown wB cB count probe rand addresses wc cc).selected = []
  ∨ (selectRandomAddresses cooldown wB cB count probe rand addresses wc cc).selected =
      (shuffleAddresses rand (selectPool cooldown cB count probe addresses wc cc).1).take
        (min count
          (shuffleAddresses rand (selectPool cooldown cB count probe addresses wc cc).1).length) := by
  unfold selectRandomAddresses
  by_cases h : (selectPool cooldown cB count probe addresses wc cc).1.length = 0
  · rw [if_pos h]
    exact Or.inl rfl
  · rw [if_neg h]
    exact Or.inr rfl

/-- C4: on a deduplicated candidate list, the selection contains no
duplicate addresses and no address that was in the wallet cooldown cache at
the start of the call. -/
theorem select_nodup_not_in_cooldown (cooldown wB cB count : Nat)
    (probe : String → ProbeOutcome) (rand : Nat → Nat) (addresses : List String)
    (wc : WalletCache) (cc : ContractCache)
    (hnd : (addresses.map normalizeAddr).Nodup) :
    (selectRandomAddresses cooldown wB cB count probe rand addresses wc cc).selected.Nodup
  ∧ ∀ x ∈ (selectRandomAddresses cooldown wB cB count probe rand addresses wc cc).selected,
      isWalletAddressInCache wc x = false := by
  rcases selectRandomAddresses_selected_cases cooldown wB cB count probe rand addresses
    wc cc with hsel | hsel
  · rw [hsel]
    exact ⟨List.nodup_nil, by intro x hx; cases hx⟩
  · rw [hsel]
    have hperm := shuffleAddresses_perm rand
      (selectPool cooldown cB count probe addresses wc cc).1
    have hpoolnd : (selectPool cooldown cB count probe addresses wc cc).1.Nodup :=
      List.Nodup.of_map normalizeAddr
        (selectPool_map_nodup cooldown cB count probe addresses wc cc hnd)
    have hshufnd := (hperm.nodup_iff).mpr hpoolnd
    constructor
    · exact (List.take_sublist _ _).nodup hshufnd
    · intro x hx
      have hxpool := hperm.mem_iff.mp ((List.take_sublist _ _).mem hx)
      have := (selectPool_mem cooldown cB count probe addresses wc cc x hxpool).2
      rw [isWalletAddressInCache_normalize] at this
      exact this

/-- Witness for C4 at a concrete input. -/
theorem select_nodup_not_in_cooldown_witness :
    (selectRandomAddresses 2 1 1 1 (fun _ => ProbeOutcome.ok none) (fun _ => 0)
      ["a", "b"] emptyWalletCache emptyContractCache).selected.Nodup
  ∧ ∀ x ∈ (selectRandomAddresses 2 1 1 1 (fun _ => ProbeOutcome.ok none) (fun _ => 0)
      ["a", "b"] emptyWalletCache emptyContractCache).selected,
      isWalletAddressInCache emptyWalletCache x = false :=
  select_nodup_not_in_cooldown 2 1 1 1 (fun _ => ProbeOutcome.ok none) (fun _ => 0)
    ["a", "b"] emptyWalletCache emptyContractCache (by decide)

/-!
## C5: selected addresses are registered in the cooldown cache
-/

theorem registerFold_preserves (cooldown wB : Nat) (rest : List String)
    (wc : WalletCache) (h : WFw wc) (na : String)
    (hnotin : na ∉ rest.map normalizeAddr)
    (hmem : na ∈ wc.members) (hbk : inBucket wc.expIndex (wB + cooldown) na) :
    na ∈ (rest.foldl (fun w a => addToWalletAddressCache cooldown a wB w) wc).members
  ∧ inBucket (rest.foldl (fun w a => addToWalletAddressCache cooldown a wB w) wc).expIndex
      (wB + cooldown) na := by
  induction rest generalizing wc with
  | nil => exact ⟨hmem, hbk⟩
  | cons z rest' ih =>
      rw [List.map_cons, List.mem_cons] at hnotin
      push_neg at hnotin
      obtain ⟨hz, hrest⟩ := hnotin
      obtain ⟨hm, hb, hWF⟩ := addWallet_spec cooldown z wB wc h
      rw [List.foldl_cons]
      refine ih _ hWF hrest ((hm na).mpr (Or.inl hmem)) ?_
      rw [hb _ na, if_neg hz]
      exact hbk

theorem registerFold_spec (cooldown wB : Nat) (l : List String) (wc : WalletCache)
    (h : WFw wc) (hnd : (l.map normalizeAddr).Nodup) :
    ∀ x ∈ l,
      normalizeAddr x ∈
        (l.foldl (fun w a => addToWalletAddressCache cooldown a wB w) wc).members
    ∧ inBucket
        (l.foldl (fun w a => addToWalletAddressCache cooldown a wB w) wc).expIndex
        (wB + cooldown) (normalizeAddr x) := by
  induction l generalizing wc with
  | nil => intro x hx; cases hx
  | cons y rest ih =>
      rw [List.map_cons, List.nodup_cons] at hnd
      intro x hx
      obtain ⟨hm, hb, hWF⟩ := addWallet_spec cooldown y wB wc h
      rw [List.foldl_cons]
      rcases List.mem_cons.mp hx with rfl | hx'
      · refine registerFold_preserves cooldown wB rest _ hWF (normalizeAddr x)
          hnd.1 ((hm _).mpr (Or.inr rfl)) ?_
        rw [hb _ (normalizeAddr x), if_pos rfl]
      · exact ih _ hWF hnd.2 x hx'

theorem selectRandomAddresses_result_cases (cooldown wB cB count : Nat)
    (probe : String → ProbeOutcome) (rand : Nat → Nat) (addresses : List String)
    (wc : WalletCache) (cc : ContractCache) :
    (selectRandomAddresses cooldown wB cB count probe rand addresses wc cc =
      ⟨[], wc, (selectPool cooldown cB count probe addresses wc cc).2⟩)
  ∨ (selectRandomAddresses cooldown wB cB count probe rand addresses wc cc =
      ⟨(shuffleAddresses rand (selectPool cooldown cB count probe addresses wc cc).1).take
          (min count (shuffleAddresses rand
            (selectPool cooldown cB count probe addresses wc cc).1).length),
        ((shuffleAddresses rand (selectPool cooldown cB count probe addresses wc cc).1).take
          (min count (shuffleAddresses rand
            (selectPool cooldown cB count probe addresses wc cc).1).length)).foldl
          (fun w a => addToWalletAddressCache cooldown a wB w) wc,
        (selectPool cooldown cB count probe addresses wc cc).2⟩) := by
  unfold selectRandomAddresses
  by_cases h : (selectPool cooldown cB count probe addresses wc cc).1.length = 0
  · rw [if_pos h]
    exact Or.inl rfl
  · rw [if_neg h]
    exact Or.inr rfl

/-- C5: on a well-formed wallet cache and a deduplicated candidate list,
every selected address is — after the call — in the wallet cooldown cache,
scheduled to expire at batch `wB + cooldown`; the registration is performed
by the same call. -/
theorem select_registers_cooldown (cooldown wB cB count : Nat)
    (probe : String → ProbeOutcome) (rand : Nat → Nat) (addresses : List String)
    (wc : WalletCache) (cc : ContractCache) (h : WFw wc)
    (hnd : (addresses.map normalizeAddr).Nodup) :
    ∀ x ∈ (selectRandomAddresses cooldown wB cB count probe rand addresses wc cc).selected,
      isWalletAddressInCache
        (selectRandomAddresses cooldown wB cB count probe rand addresses wc cc).wallet
        x = true
    ∧ inBucket
        (selectRandomAddresses cooldown wB cB count probe rand addresses wc cc).wallet.expIndex
        (wB + cooldown) (normalizeAddr x) := by
  rcases selectRandomAddresses_result_cases cooldown wB cB count probe rand addresses
    wc cc with hres | hres
  · rw [hres]
    intro x hx
    cases hx
  · rw [hres]
    have hperm := shuffleAddresses_perm rand
      (selectPool cooldown cB count probe addresses wc cc).1
    have hselnd : (((shuffleAddresses rand
        (selectPool cooldown cB count probe addresses wc cc).1).take
        (min count (shuffleAddresses rand
          (selectPool cooldown cB count probe addresses wc cc).1).length)).map
        normalizeAddr).Nodup := by
      have hpool := selectPool_map_nodup cooldown cB count probe addresses wc cc hnd
      have hshuf : ((shuffleAddresses rand
          (selectPool cooldown cB count probe addresses wc cc).1).map
          normalizeAddr).Nodup := ((hperm.map normalizeAddr).nodup_iff).mpr hpool
      rw [List.map_take]
      exact (List.take_sublist _ _).nodup hshuf
    intro x hx
    have := registerFold_spec cooldown wB _ wc h hselnd x hx
    refine ⟨?_, this.2⟩
    unfold isWalletAddressInCache
    exact (setHas_iff _ _).mpr this.1

/-- Witness for C5 at a concrete input: with the constant-zero random
oracle the call selects `"b"`, which is then cached with expiry batch 3. -/
theorem select_registers_cooldown_witness :
    isWalletAddressInCache
      (selectRandomAddresses 2 1 1 1 (fun _ => ProbeOutcome.ok none) (fun _ => 0)
        ["a", "b"] emptyWalletCache emptyContractCache).wallet "b" = true
  ∧ inBucket
      (selectRandomAddresses 2 1 1 1 (fun _ => ProbeOutcome.ok none) (fun _ => 0)
        ["a", "b"] emptyWalletCache emptyContractCache).wallet.expIndex
      3 (normalizeAddr "b") :=
  select_registers_cooldown 2 1 1 1 (fun _ => ProbeOutcome.ok none) (fun _ => 0)
    ["a", "b"] emptyWalletCache emptyContractCache WFw_empty (by decide) "b" (by decide)

/-!
## C8: a small eligible pool is returned whole
-/

/-- C8: when the eligible pool built inside `selectRandomAddresses` has at
most `count` entries, the returned selection is a permutation of the whole
pool (and, on a deduplicated candidate list, duplicate-free): no entry is
dropped by the shuffle or by the truncation `slice(0, min(count, length))`. -/
theorem select_small_pool_returns_all (cooldown wB cB count : Nat)
    (probe : String → ProbeOutcome) (rand : Nat → Nat) (addresses : List String)
    (wc : WalletCache) (cc : ContractCache)
    (hnd : (addresses.map normalizeAddr).Nodup)
    (hle : (selectPool cooldown cB count probe addresses wc cc).1.length ≤ count) :
    (selectRandomAddresses cooldown wB cB count probe rand addresses wc cc).selected.Perm
      (selectPool cooldown cB count probe addresses wc cc).1
  ∧ (selectRandomAddresses cooldown wB cB count probe rand addresses wc cc).selected.Nodup := by
  have hpoolnd : (selectPool cooldown cB count probe addresses wc cc).1.Nodup :=
    List.Nodup.of_map normalizeAddr
      (selectPool_map_nodup cooldown cB count probe addresses wc cc hnd)
  rcases selectRandomAddresses_selected_cases cooldown wB cB count probe rand addresses
    wc cc with hsel | hsel
  · -- the length-0 branch: the pool is empty
    have hzero : (selectPool cooldown cB count probe addresses wc cc).1.length = 0 := by
      by_contra hne
      rw [show (selectRandomAddresses cooldown wB cB count probe rand addresses
          wc cc).selected =
        (shuffleAddresses rand (selectPool cooldown cB count probe addresses wc cc).1).take
          (min count (shuffleAddresses rand
            (selectPool cooldown cB count probe addresses wc cc).1).length) from by
        unfold selectRandomAddresses
        rw [if_neg hne]] at hsel
      have hlen := congrArg List.length hsel
      rw [List.length_take,
        (shuffleAddresses_perm rand _).length_eq, List.length_nil] at hlen
      have := Nat.min_eq_right hle
      omega
    rw [hsel, List.length_eq_zero.mp hzero]
    exact ⟨List.Perm.refl [], List.nodup_nil⟩
  · rw [hsel]
    have hperm := shuffleAddresses_perm rand
      (selectPool cooldown cB count probe addresses wc cc).1
    have hlen : (shuffleAddresses rand
        (selectPool cooldown cB count probe addresses wc cc).1).length =
        (selectPool cooldown cB count probe addresses wc cc).1.length :=
      hperm.length_eq
    have hmin : min count (shuffleAddresses rand
        (selectPool cooldown cB count probe addresses wc cc).1).length =
        (shuffleAddresses rand
          (selectPool cooldown cB count probe addresses wc cc).1).length := by
      rw [hlen]
      exact Nat.min_eq_right hle
    rw [hmin, List.take_length]
    exact ⟨hperm, hperm.nodup_iff.mpr hpoolnd⟩

/-- Witness for C8 at a concrete input (pool `["a", "b"]`, count 5). -/
theorem select_small_pool_returns_all_witness :
    (selectRandomAddresses 2 1 1 5 (fun _ => ProbeOutcome.ok none) (fun _ => 0)
      ["a", "b"] emptyWalletCache emptyContractCache).selected.Perm
      (selectPool 2 1 5 (fun _ => ProbeOutcome.ok none)
        ["a", "b"] emptyWalletCache emptyContractCache).1
  ∧ (selectRandomAddresses 2 1 1 5 (fun _ => ProbeOutcome.ok none) (fun _ => 0)
      ["a", "b"] emptyWalletCache emptyContractCache).selected.Nodup :=
  select_small_pool_returns_all 2 1 1 5 (fun _ => ProbeOutcome.ok none) (fun _ => 0)
    ["a", "b"] emptyWalletCache emptyContractCache (by decide) (by decide)

/-!
## C3: probe failure is absorbed; C7: cache hits never probe
-/

theorem updateContract_members_refresh (cooldown : Nat) (address : String) (B : Nat)
    (s : ContractCache) :
    (updateContractAddressCache cooldown address B false s).members = s.members := by
  simp only [updateContractAddressCache, Bool.false_eq_true, if_false]
  split
  · split <;> rfl
  · rfl

/-- C3: a failed remote probe is absorbed inside the classifier: on a cache
miss with a failing probe, `isContractAddress` resolves to the fail-safe
value `false`, caches nothing, and the error goes no further — for every
probe oracle, `selectRandomAddresses` returns an ordinary result (the
embedding of every function involved is total, so no probe outcome can
surface an error to the caller of select). -/
theorem classify_failsafe_total (cooldown cB : Nat) (probe : String → ProbeOutcome)
    (address : String) (cc : ContractCache)
    (hmiss : isContractAddressInCache cc (normalizeAddr address) = false)
    (hfail : probe address = ProbeOutcome.fail) :
    isContractAddress cooldown cB probe address cc =
      { isContract := false, cache := cc, probed := true }
  ∧ ∀ (wB count : Nat) (rand : Nat → Nat) (addresses : List String) (wc : WalletCache),
      ∃ r : SelectResult,
        selectRandomAddresses cooldown wB cB count probe rand addresses wc cc = r := by
  constructor
  · unfold isContractAddress
    rw [if_neg (by rw [hmiss]; simp), hfail]
  · intro wB count rand addresses wc
    exact ⟨selectRandomAddresses cooldown wB cB count probe rand addresses wc cc, rfl⟩

/-- Witness for C3 at a concrete input (always-failing probe). -/
theorem classify_failsafe_total_witness :
    isContractAddress 2 1 (fun _ => ProbeOutcome.fail) "a" emptyContractCache =
      { isContract := false, cache := emptyContractCache, probed := true }
  ∧ ∀ (wB count : Nat) (rand : Nat → Nat) (addresses : List String) (wc : WalletCache),
      ∃ r : SelectResult,
        selectRandomAddresses 2 wB 1 count (fun _ => ProbeOutcome.fail) rand addresses
          wc emptyContractCache = r :=
  classify_failsafe_total 2 1 (fun _ => ProbeOutcome.fail) "a" emptyContractCache
    rfl rfl

/-- C7: on a well-formed contract cache, classifying an address already in
the classification cache issues no remote probe, returns the cached
boolean, and refreshes the entry's expiry to `cB + cooldown * 10`. -/
theorem classify_cache_hit_no_probe (cooldown cB : Nat) (probe : String → ProbeOutcome)
    (address : String) (cc : ContractCache) (h : WFc cc)
    (hhit : isContractAddressInCache cc (normalizeAddr address) = true) :
    (isContractAddress cooldown cB probe address cc).probed = false
  ∧ (∃ v, mapGet cc.members (normalizeAddr address) = some v ∧
      (isContractAddress cooldown cB probe address cc).isContract = v)
  ∧ inBucket (isContractAddress cooldown cB probe address cc).cache.expIndex
      (cB + cooldown * 10) (normalizeAddr address) := by
  have hsome : (mapGet cc.members (normalizeAddr address)).isSome = true := by
    unfold isContractAddressInCache at hhit
    rwa [normalizeAddr_idem] at hhit
  obtain ⟨v, hv⟩ := Option.isSome_iff_exists.mp hsome
  have hres : isContractAddress cooldown cB probe address cc =
      { isContract := (getContractAddressFromCache
          (updateContractAddressCache cooldown (normalizeAddr address) cB false cc)
          (normalizeAddr address)).getD false
        cache := updateContractAddressCache cooldown (normalizeAddr address) cB false cc
        probed := false } := by
    unfold isContractAddress
    rw [if_pos hhit]
  obtain ⟨_, hbk, _⟩ := updateContract_spec cooldown (normalizeAddr address) cB false cc h
    (Or.inr (by rwa [normalizeAddr_idem]))
  rw [hres]
  refine ⟨rfl, ⟨v, hv, ?_⟩, ?_⟩
  · show (getContractAddressFromCache
      (updateContractAddressCache cooldown (normalizeAddr address) cB false cc)
      (normalizeAddr address)).getD false = v
    unfold getContractAddressFromCache
    rw [updateContract_members_refresh, normalizeAddr_idem, hv]
    rfl
  · show inBucket (updateContractAddressCache cooldown (normalizeAddr address)
      cB false cc).expIndex (cB + cooldown * 10) (normalizeAddr address)
    rw [hbk (cB + cooldown * 10) (normalizeAddr address),
      if_pos (normalizeAddr_idem address).symm]

/-- Witness for C7 at a concrete input: `"a"` cached as a contract. -/
theorem classify_cache_hit_no_probe_witness :
    (isContractAddress 3 2 (fun _ => ProbeOutcome.fail) "a"
      (updateContractAddressCache 3 "a" 1 true emptyContractCache)).probed = false
  ∧ (∃ v, mapGet (updateContractAddressCache 3 "a" 1 true emptyContractCache).members
        (normalizeAddr "a") = some v ∧
      (isContractAddress 3 2 (fun _ => ProbeOutcome.fail) "a"
        (updateContractAddressCache 3 "a" 1 true emptyContractCache)).isContract = v)
  ∧ inBucket (isContractAddress 3 2 (fun _ => ProbeOutcome.fail) "a"
        (updateContractAddressCache 3 "a" 1 true emptyContractCache)).cache.expIndex
      32 (normalizeAddr "a") :=
  classify_cache_hit_no_probe 3 2 (fun _ => ProbeOutcome.fail) "a"
    (updateContractAddressCache 3 "a" 1 true emptyContractCache)
    (updateContract_spec 3 "a" 1 true emptyContractCache WFc_empty (Or.inl rfl)).2.2
    rfl

/-!
## C10: only positive classifications are ever cached
-/

theorem mapGet_mem {κ β : Type} [DecidableEq κ] (m : List (κ × β)) (k : κ) (v : β)
    (h : mapGet m k = some v) : (k, v) ∈ m := by
  induction m with
  | nil => cases h
  | cons p rest ih =>
      by_cases hp : p.1 = k
      · rw [show mapGet (p :: rest) k = some p.2 from by simp [mapGet, hp],
          Option.some.injEq] at h
        have hpv : p = (k, v) := by
          cases p
          simp only at hp h
          rw [hp, h]
        rw [hpv]
        exact List.mem_cons_self _ _
      · rw [show mapGet (p :: rest) k = mapGet rest k from by simp [mapGet, hp]] at h
        exact List.mem_cons_of_mem p (ih h)

theorem mapDel_entries_sublist {κ β : Type} [DecidableEq κ] (m : List (κ × β)) (k : κ) :
    (mapDel m k).Sublist m := by
  induction m with
  | nil => simp [mapDel]
  | cons p rest ih =>
      by_cases hp : p.1 = k
      · simp only [mapDel, if_pos hp]
        exact List.sublist_cons_of_sublist p (List.Sublist.refl rest)
      · simp only [mapDel, if_neg hp]
        exact List.Sublist.cons₂ p ih

theorem mapSet_true_values (m : List (String × Bool)) (k : String)
    (h : ∀ p ∈ m, p.2 = true) : ∀ p ∈ mapSet m k true, p.2 = true := by
  induction m with
  | nil =>
      intro p hp
      rw [show mapSet ([] : List (String × Bool)) k true = [(k, true)] from rfl,
        List.mem_singleton] at hp
      rw [hp]
  | cons q rest ih =>
      intro p hp
      by_cases hq : q.1 = k
      · rw [show mapSet (q :: rest) k true = (k, true) :: rest from by
          simp [mapSet, hq]] at hp
        rcases List.mem_cons.mp hp with rfl | hp'
        · rfl
        · exact h p (List.mem_cons_of_mem q hp')
      · rw [show mapSet (q :: rest) k true = q :: mapSet rest k true from by
          simp [mapSet, hq]] at hp
        rcases List.mem_cons.mp hp with rfl | hp'
        · exact h _ (List.mem_cons_self _ _)
        · exact ih (fun r hr => h r (List.mem_cons_of_mem q hr)) p hp'

theorem foldl_mapDel_entries_sublist {κ β : Type} [DecidableEq κ]
    (l : List κ) : ∀ m : List (κ × β),
    (l.foldl (fun mm k => mapDel mm k) m).Sublist m := by
  induction l with
  | nil => intro m; exact List.Sublist.refl m
  | cons a rest ih =>
      intro m
      rw [List.foldl_cons]
      exact (ih (mapDel m a)).trans (mapDel_entries_sublist m a)

theorem contractEvolve_entries_true {s : ContractCache} (h : ContractEvolve s) :
    ∀ p ∈ s.members, p.2 = true := by
  induction h with
  | init => intro p hp; cases hp
  | upsert cooldown address B isNewContract s _ ih =>
      intro p hp
      have hm : (updateContractAddressCache cooldown address B isNewContract s).members =
          (if isNewContract then mapSet s.members (normalizeAddr address) true
           else s.members) := by
        simp only [updateContractAddressCache]
        repeat' split
        all_goals rfl
      rw [hm] at hp
      cases isNewContract with
      | true =>
          rw [if_pos rfl] at hp
          exact mapSet_true_values s.members (normalizeAddr address) ih p hp
      | false =>
          rw [if_neg (by simp)] at hp
          exact ih p hp
  | expire B s _ ih =>
      intro p hp
      unfold cleanupContractAddressCache at hp
      cases hB : mapGet s.expIndex B with
      | none =>
          rw [hB] at hp
          exact ih p hp
      | some v =>
          rw [hB] at hp
          simp only at hp
          exact ih p ((foldl_mapDel_entries_sublist v s.members).mem hp)

/-- C10: in every state of the contract classification cache reachable by
any sequence of upserts and cleanups, every stored entry maps to `true`
(negative classifications are never cached); consequently the
known-non-contract "keep directly" partition of `selectRandomAddresses` is
always empty, and the branch that skips probing because that partition
already holds `count * 2` entries can only be taken when `count = 0` (the
count is a natural number here; in JS, when it is zero or negative). -/
theorem contract_cache_positive_only :
    (∀ s : ContractCache, ContractEvolve s →
      ∀ x v, mapGet s.members x = some v → v = true)
  ∧ (∀ (s : ContractCache) (wc : WalletCache) (addresses : List String),
      ContractEvolve s → (selectPartition wc s addresses).1 = [])
  ∧ (∀ (s : ContractCache) (wc : WalletCache) (addresses : List String) (count : Nat),
      ContractEvolve s →
      count * 2 ≤ (selectPartition wc s addresses).1.length → count = 0) := by
  have h1 : ∀ s : ContractCache, ContractEvolve s →
      ∀ x v, mapGet s.members x = some v → v = true := by
    intro s hs x v hv
    exact contractEvolve_entries_true hs (x, v) (mapGet_mem s.members x v hv)
  have h2 : ∀ (s : ContractCache) (wc : WalletCache) (addresses : List String),
      ContractEvolve s → (selectPartition wc s addresses).1 = [] := by
    intro s wc addresses hs
    unfold selectPartition
    rw [List.filter_eq_nil_iff]
    intro x _
    simp only [Bool.and_eq_true, Bool.not_eq_true']
    rintro ⟨⟨hdrop, _⟩, hknown⟩
    unfold isContractAddressInCache at hknown
    obtain ⟨v, hv⟩ := Option.isSome_iff_exists.mp hknown
    have hvt := h1 s hs _ v hv
    subst hvt
    unfold dropAsContract at hdrop
    rw [Bool.and_eq_false_iff] at hdrop
    rcases hdrop with hdrop | hdrop
    · unfold isContractAddressInCache at hdrop
      rw [hv] at hdrop
      cases hdrop
    · rw [decide_eq_false_iff_not] at hdrop
      unfold getContractAddressFromCache at hdrop
      exact hdrop hv
  refine ⟨h1, h2, ?_⟩
  intro s wc addresses count hs hcount
  rw [h2 s wc addresses hs] at hcount
  simpa using hcount

/-- Witness for C10 at concrete reachable states. -/
theorem contract_cache_positive_only_witness :
    (∀ x v, mapGet (updateContractAddressCache 3 "a" 1 true emptyContractCache).members
        x = some v → v = true)
  ∧ (selectPartition emptyWalletCache
      (updateContractAddressCache 3 "a" 1 true emptyContractCache) ["a", "b"]).1 = [] :=
  ⟨contract_cache_positive_only.1 _
      (ContractEvolve.upsert 3 "a" 1 true emptyContractCache ContractEvolve.init),
   contract_cache_positive_only.2.1 _ emptyWalletCache ["a", "b"]
      (ContractEvolve.upsert 3 "a" 1 true emptyContractCache ContractEvolve.init)⟩

/-!
## The dispatch queue (`sendTokens` / `processTransactionQueue`)

JS runs these handlers on one thread; the code between the
`isProcessingSend` test and its assignment contains no `await`, so each of
the following transitions is atomic:
- `sendTokens` while a send is processing pushes the batch onto
  `transactionQueue` and returns (no send);
- `sendTokens` while idle sets `isProcessingSend` and starts
  `processBatch` (a send begins);
- completion of `processBatch` clears `isProcessingSend` (the `finally`);
- a `processTransactionQueue` tick while idle with a non-empty queue
  shifts the oldest batch and starts sending it; otherwise it returns.
`current` records the batch whose `processBatch` is awaited; `log` records
begin/finish events of sends for stating the non-overlap property.
-/

inductive DEvent where
  | begin (batch : List String)
  | finish (batch : List String)
deriving DecidableEq

structure DispatchState where
  isProcessingSend : Bool
  transactionQueue : List (List String)
  current : Option (List String)
  log : List DEvent
deriving DecidableEq

def initDispatch : DispatchState :=
  { isProcessingSend := false, transactionQueue := [], current := none, log := [] }

inductive DStep : DispatchState → DispatchState → Prop where
  | submitQueued (s : DispatchState) (b : List String) :
      s.isProcessingSend = true →
      DStep s { s with transactionQueue := s.transactionQueue ++ [b] }
  | submitStart (s : DispatchState) (b : List String) :
      s.isProcessingSend = false →
      DStep s { s with isProcessingSend := true, current := some b,
                       log := s.log ++ [DEvent.begin b] }
  | sendComplete (s : DispatchState) (b : List String) :
      s.current = some b →
      DStep s { s with isProcessingSend := false, current := none,
                       log := s.log ++ [DEvent.finish b] }
  | tickStart (s : DispatchState) (b : List String) (bs : List (List String)) :
      s.isProcessingSend = false → s.transactionQueue = b :: bs →
      DStep s { isProcessingSend := true, transactionQueue := bs, current := some b,
                log := s.log ++ [DEvent.begin b] }
  | tickNoop (s : DispatchState) :
      s.isProcessingSend = true ∨ s.transactionQueue = [] →
      DStep s s

inductive DReach : DispatchState → Prop where
  | init : DReach initDispatch
  | step (s s' : DispatchState) : DReach s → DStep s s' → DReach s'

/-- Fold over a send log: `some cur` is the batch currently open; the result
is `none` when the log contains overlapping or unmatched sends. -/
def scanLog : Option (List String) → List DEvent → Option (Option (List String))
  | o, [] => some o
  | none, DEvent.begin b :: rest => scanLog (some b) rest
  | some _, DEvent.begin _ :: _ => none
  | some b, DEvent.finish b' :: rest => if b' = b then scanLog none rest else none
  | none, DEvent.finish _ :: _ => none

theorem scanLog_append (l1 l2 : List DEvent) :
    ∀ o0, scanLog o0 (l1 ++ l2) =
      match scanLog o0 l1 with
      | some cur => scanLog cur l2
      | none => none := by
  induction l1 with
  | nil => intro o0; cases o0 <;> rfl
  | cons e rest ih =>
      intro o0
      cases e with
      | begin b =>
          cases o0 with
          | none =>
              rw [List.cons_append]
              rw [show scanLog none (DEvent.begin b :: (rest ++ l2)) =
                scanLog (some b) (rest ++ l2) from rfl]
              rw [show scanLog none (DEvent.begin b :: rest) =
                scanLog (some b) rest from rfl]
              exact ih (some b)
          | some c =>
              rfl
      | finish b =>
          cases o0 with
          | none => rfl
          | some c =>
              rw [List.cons_append]
              rw [show scanLog (some c) (DEvent.finish b :: (rest ++ l2)) =
                (if b = c then scanLog none (rest ++ l2) else none) from rfl]
              rw [show scanLog (some c) (DEvent.finish b :: rest) =
                (if b = c then scanLog none rest else none) from rfl]
              by_cases hbc : b = c
              · rw [if_pos hbc, if_pos hbc]
                exact ih none
              · rw [if_neg hbc, if_neg hbc]

/-- C2: at most one reward batch is in flight at any instant. In every
reachable dispatch state the send log is well-nested with the open send
equal to the in-flight batch (so two sends never overlap), and the
`isProcessingSend` flag tracks exactly whether a batch is in flight.
Moreover, the back-to-back scenario: a submit while idle begins sending
`b1`; a second submit while `b1` is still in flight appends `b2` to the
FIFO queue, emitting no send event; when `b1` completes, the queue tick
dispatches `b2` — the oldest queued batch — so the log shows the
sequential, non-overlapping order `begin b1, finish b1, begin b2`. -/
theorem dispatch_single_flight :
    (∀ s : DispatchState, DReach s →
      scanLog none s.log = some s.current ∧
      s.isProcessingSend = s.current.isSome)
  ∧ (∀ b1 b2 : List String,
      DStep initDispatch
        { isProcessingSend := true, transactionQueue := [], current := some b1,
          log := [DEvent.begin b1] }
      ∧ DStep
        { isProcessingSend := true, transactionQueue := [], current := some b1,
          log := [DEvent.begin b1] }
        { isProcessingSend := true, transactionQueue := [b2], current := some b1,
          log := [DEvent.begin b1] }
      ∧ DStep
        { isProcessingSend := true, transactionQueue := [b2], current := some b1,
          log := [DEvent.begin b1] }
        { isProcessingSend := false, transactionQueue := [b2], current := none,
          log := [DEvent.begin b1, DEvent.finish b1] }
      ∧ DStep
        { isProcessingSend := false, transactionQueue := [b2], current := none,
          log := [DEvent.begin b1, DEvent.finish b1] }
        { isProcessingSend := true, transactionQueue := [], current := some b2,
          log := [DEvent.begin b1, DEvent.finish b1, DEvent.begin b2] }) := by
  constructor
  · intro s hs
    induction hs with
    | init => exact ⟨rfl, rfl⟩
    | step s s' _ hstep ih =>
        obtain ⟨ihlog, ihflag⟩ := ih
        cases hstep with
        | submitQueued b hf => exact ⟨ihlog, ihflag⟩
        | submitStart b hf =>
            have hcur : s.current = none := by
              rw [hf] at ihflag
              cases hc : s.current with
              | none => rfl
              | some c => rw [hc] at ihflag; cases ihflag
            constructor
            · show scanLog none (s.log ++ [DEvent.begin b]) = some (some b)
              rw [scanLog_append s.log [DEvent.begin b] none, ihlog, hcur]
              rfl
            · rfl
        | sendComplete b hc =>
            constructor
            · show scanLog none (s.log ++ [DEvent.finish b]) = some none
              rw [scanLog_append s.log [DEvent.finish b] none, ihlog, hc]
              show (if b = b then scanLog none [] else none) = some none
              rw [if_pos rfl]
              rfl
            · rfl
        | tickStart b bs hf hq =>
            have hcur : s.current = none := by
              rw [hf] at ihflag
              cases hc : s.current with
              | none => rfl
              | some c => rw [hc] at ihflag; cases ihflag
            constructor
            · show scanLog none (s.log ++ [DEvent.begin b]) = some (some b)
              rw [scanLog_append s.log [DEvent.begin b] none, ihlog, hcur]
              rfl
            · rfl
        | tickNoop hcond => exact ⟨ihlog, ihflag⟩
  · intro b1 b2
    refine ⟨?_, ?_, ?_, ?_⟩
    · exact DStep.submitStart initDispatch b1 rfl
    · exact DStep.submitQueued _ b2 rfl
    · exact DStep.sendComplete _ b1 rfl
    · exact DStep.tickStart _ b2 [] rfl rfl

/-- Witness for C2 at concrete states: the invariant at a reachable state
with one batch in flight, and the scenario at concrete batches. -/
theorem dispatch_single_flight_witness :
    (scanLog none [DEvent.begin ["a"]] = some (some ["a"]) ∧
      (true : Bool) = (some ["a"]).isSome)
  ∧ DStep initDispatch
      { isProcessingSend := true, transactionQueue := [], current := some ["a"],
        log := [DEvent.begin ["a"]] } :=
  ⟨dispatch_single_flight.1
      { isProcessingSend := true, transactionQueue := [], current := some ["a"],
        log := [DEvent.begin ["a"]] }
      (DReach.step initDispatch _ DReach.init (DStep.submitStart initDispatch ["a"] rfl)),
   (dispatch_single_flight.2 ["a"] ["b"]).1⟩
